import Mathlib

/-!
Verification of the gophersat CDCL solver core (package `solver`, file
`src/solver/solver.go`) and of the `bf` formula package (`src/bf/bf.go`)
against its natural-language specification.

The repository ships only `solver.go` of the `solver` package.  The helper
files (`lit.go`, `clause.go`, `queue.go`, `watcherlist.go`, the propagation
and conflict-analysis engine) are not part of the sources, so those pieces
are modelled from the specification (each such definition carries a doc
comment starting with `Modelled from the spec:`).  Everything translated
from `solver.go` cites the corresponding Go function.
-/

set_option maxHeartbeats 1000000

namespace GS

/-- Solver status (`Status` in the Go sources, defined outside `solver.go`).
Modelled from the spec: §4.6 "status ∈ {Indet, Sat, Unsat}". -/
inductive Status where
  | Indet
  | Sat
  | Unsat
deriving DecidableEq, Repr

/-- Modelled from the spec: §4.1 — a variable is a non-negative index. -/
abbrev GVar := Nat

/-- Modelled from the spec: §4.1 — a literal is `2v + sign_bit`
(`lit.go` is not under src/).  Even literals are positive. -/
abbrev Lit := Nat

/-- Modelled from the spec: §4.1 `lit.var()`. -/
def Lit.varOf (l : Lit) : GVar := l / 2

/-- Modelled from the spec: §4.1 sign of a literal (`Lit.IsPositive`). -/
def Lit.isPositive (l : Lit) : Bool := l % 2 == 0

/-- Modelled from the spec: §4.1 `lit.negate()` (`Lit.Negation`). -/
def Lit.negation (l : Lit) : Lit := if l % 2 == 0 then l + 1 else l - 1

/-- Modelled from the spec: §4.1 DIMACS-style external representation
±(v+1) to internal literal (`IntToLit`). -/
def IntToLit (i : Int) : Lit :=
  if i < 0 then (2 * (-i - 1) + 1).toNat else (2 * (i - 1)).toNat

/-- Modelled from the spec: §3 "magnitude is the decision level, sign encodes
the assigned truth value" (`lvlToSignedLvl`, not under src/). -/
def lvlToSignedLvl (l : Lit) (lvl : Int) : Int :=
  if l.isPositive then lvl else -lvl

/-- The uniform constraint object of §3/§4.2 (`clause.go` is not under src/).
Modelled from the spec: literal list, optional per-literal weights (absent
means all weights 1), cardinality threshold, learned flag.  Activity, LBD and
the watched-prefix bookkeeping are not needed by the claims and are omitted;
the lock counters live in a separate ledger on the solver (`Solver.locks`). -/
structure Clause where
  lits : List Lit
  weights : Option (List Int)
  cardinality : Int
  learned : Bool
deriving DecidableEq, Repr

namespace Clause

/-- Modelled from the spec: §4.2 `len()`. -/
def lenC (c : Clause) : Nat := c.lits.length

/-- Modelled from the spec: §4.2 `get(i)`. -/
def get (c : Clause) (i : Nat) : Lit := c.lits.getD i 0

/-- Modelled from the spec: §4.2 `weight(i)` — 1 when no weights are stored. -/
def weight (c : Clause) (i : Nat) : Int :=
  match c.weights with
  | none => 1
  | some ws => ws.getD i 1

/-- Modelled from the spec: §4.2 `is_pseudo_boolean()`. -/
def pseudoBoolean (c : Clause) : Bool := c.weights.isSome

/-- Modelled from the spec: §4.2 `first()` — the literal in slot 0. -/
def first (c : Clause) : Lit := c.get 0

/-- Modelled from the spec: §4.10 — removing a literal (and its weight) from
the constraint (`removeLit`); implemented as swap-with-last removal, the
spec does not fix the resulting order. -/
def removeLit (c : Clause) (i : Nat) : Clause :=
  { c with
    lits := ((c.lits.set i (c.lits.getD (c.lits.length - 1) 0)).dropLast),
    weights := c.weights.map fun ws =>
      (ws.set i (ws.getD (ws.length - 1) 1)).dropLast }

/-- Modelled from the spec: §4.10 — adjusting the required cardinality
(`updateCardinality`). -/
def updateCardinality (c : Clause) (w : Int) : Clause :=
  { c with cardinality := c.cardinality + w }

/-- The per-literal weights as a list, defaulting to all-ones
(the view used by the PB semantics of §4.2). -/
def weightsList (c : Clause) : List Int :=
  match c.weights with
  | none => List.replicate c.lits.length 1
  | some ws => ws

/-- The (literal, weight) pairs of a constraint. -/
def pairs (c : Clause) : List (Lit × Int) := c.lits.zip c.weightsList

end Clause

/-- Modelled from the spec: §4.11 / `NewClause` — a plain clause
(cardinality 1, no weights). -/
def NewClause (lits : List Lit) : Clause :=
  { lits := lits, weights := none, cardinality := 1, learned := false }

/-- Modelled from the spec: §4.9 / `NewPBClause` — a pseudo-Boolean
constraint with the given weights and threshold. -/
def NewPBClause (lits : List Lit) (weights : List Int) (card : Int) : Clause :=
  { lits := lits, weights := some weights, cardinality := card, learned := false }

/-- The solver state (`Solver` struct in `solver.go`).  Clauses are stored in
`store` and referenced by index so that reason pointers and lock counts keep
their identity; `pbClauses`, `learned` and `watched` mirror
`wl.pbClauses`, `wl.learned` and the watcher lists (the watcher list itself
lives in `watcherlist.go`, not under src/, and is modelled from the spec as
the set of attached constraint ids).  The order heap (`varQueue`) is modelled
from the spec (§2) as the set of variables it contains; activity, statistics
and LBD bookkeeping are omitted as no claim mentions them. -/
structure Solver where
  nbVars : Nat
  status : Status
  model : List Int
  trail : List Lit
  reason : List (Option Nat)
  polarity : List Bool
  queue : List GVar
  store : List Clause
  locks : List Nat
  pbClauses : List Nat
  learnedDB : List Nat
  watched : List Nat
  minLits : Option (List Lit)
  minWeights : Option (List Int)
  asumptions : List Lit
  lastModel : Option (List Int)
deriving DecidableEq, Repr

namespace Solver

/-- `litStatus` (solver.go:166-175): Sat / Unsat / Indet of a literal under
the current bindings. -/
def litStatus (s : Solver) (l : Lit) : Status :=
  let assign := s.model.getD l.varOf 0
  if assign = 0 then Status.Indet
  else if (decide (0 < assign)) = l.isPositive then Status.Sat
  else Status.Unsat

/-- Modelled from the spec: §2 — the order heap holds variables; insertion
is performed only when the variable is not already present
(`cleanupBindings` guards each insert with `contains`), so the queue is
modelled as a duplicate-free membership list with idempotent insert. -/
def queueInsert (q : List GVar) (v : GVar) : List GVar :=
  if v ∈ q then q else v :: q

/-- `resetOptimPolarity` (solver.go:127-134): optimization literals prefer
the polarity that falsifies them. -/
def resetOptimPolarity (s : Solver) : Solver :=
  match s.minLits with
  | none => s
  | some ls =>
    { s with polarity := ls.foldl (fun p l => p.set l.varOf (!l.isPositive)) s.polarity }

/-- One iteration of the inner unbinding loop of `cleanupBindings`
(solver.go:241-254): clear the binding, clear and unlock the reason,
save the polarity, re-insert the variable into the order heap. -/
def unbindLit (s : Solver) (l : Lit) : Solver :=
  let v := l.varOf
  let s := { s with model := s.model.set v 0 }
  let s :=
    match s.reason.getD v none with
    | some cid =>
      { s with locks := s.locks.set cid (s.locks.getD cid 0 - 1),
               reason := s.reason.set v none }
    | none => s
  { s with polarity := s.polarity.set v l.isPositive,
           queue := queueInsert s.queue v }

/-- The scan predicate of `cleanupBindings` (solver.go:240):
`abs(s.model[lit.Var()]) > lvl`. -/
def aboveLvl (s : Solver) (lvl : Int) (l : Lit) : Bool :=
  lvl < ((s.model.getD l.varOf 0).natAbs : Int)

/-- `cleanupBindings` (solver.go:237-280): undo every assignment made at a
level strictly above `lvl`.  The Go code scans the trail for the first
literal bound above `lvl`, unbinds that literal and every later one, and
truncates the trail there; the second `toInsert` pass re-inserts variables
already present in the heap and is absorbed by the idempotent
`queueInsert`.  Finally the optimization polarities are reset. -/
def cleanupBindings (s : Solver) (lvl : Int) : Solver :=
  let s' :=
    match s.trail.findIdx? (s.aboveLvl lvl) with
    | none => s
    | some i =>
      let s2 := (s.trail.drop i).foldl unbindLit s
      { s2 with trail := s.trail.take i }
  s'.resetOptimPolarity

/-- `rebuildOrderHeap` (solver.go:289-297): rebuild the heap from a slice
that starts as `nbVars` zero entries (the Go code allocates with
`make([]int, s.nbVars)` and then appends) followed by every free
variable; `queue.build` (not under src/) is modelled from the spec as
taking the set of listed variables. -/
def rebuildOrderHeap (s : Solver) : Solver :=
  let free := (List.range s.nbVars).filter (fun v => s.model.getD v 0 = 0)
  { s with queue := (List.replicate s.nbVars 0 ++ free).dedup }

/-- Modelled from the spec: §4.4 `unifyLiteral` (not under src/) assigns the
literal and propagates the consequences through the watcher lists.  At the
top level the caller has already written the binding into the model; the
trail push is kept and consequence propagation is left to the search
(modelled by the solve oracle), so no conflict is reported here. -/
def unifyLiteralTop (s : Solver) (l : Lit) : Solver :=
  { s with trail := s.trail ++ [l] }

/-- `propagateUnits` (solver.go:606-618): assert each literal at level 1,
undoing to level 1 first and rebuilding the order heap afterwards. -/
def propagateUnits (s : Solver) (units : List Lit) : Solver :=
  units.foldl
    (fun s unit =>
      let s1 := s.cleanupBindings 1
      let s2 := { s1 with model := s1.model.set unit.varOf (lvlToSignedLvl unit 1) }
      let s3 := s2.unifyLiteralTop unit
      s3.rebuildOrderHeap)
    s

/-- Modelled from the spec: §4.10 "attach and watch the constraint as usual"
(the lower-case `appendClause` of the watcher list, not under src/): the
constraint is stored, added to the problem database and watched. -/
def appendClauseI (s : Solver) (c : Clause) : Solver :=
  let cid := s.store.length
  { s with store := s.store ++ [c],
           locks := s.locks ++ [0],
           pbClauses := s.pbClauses ++ [cid],
           watched := s.watched ++ [cid] }

/-- The literal-filtering loop of `AppendClause` (solver.go:665-681):
walk the constraint's literals; a literal satisfied at level 1 contributes
its weight to `minW` and `maxW`, is removed and lowers the cardinality;
a falsified literal is removed; an unbound literal contributes to `maxW`
and is kept.  Returns the reduced constraint together with `minW`, `maxW`.
The Go loop runs while `i < clause.Len()` and each step lowers
`clause.Len() - i` by exactly one; that quantity is passed as explicit
fuel so the recursion is structural. -/
def acFilter (s : Solver) : Nat → Clause → Nat → Int → Int →
    Clause × Int × Int
  | 0, c, _, minW, maxW => (c, minW, maxW)
  | fuel + 1, c, i, minW, maxW =>
    if i < c.lits.length then
      let lit := c.get i
      match s.litStatus lit with
      | Status.Sat =>
        let w := c.weight i
        acFilter s fuel ((c.removeLit i).updateCardinality (-w)) i (minW + w) (maxW + w)
      | Status.Unsat =>
        acFilter s fuel (c.removeLit i) i minW maxW
      | Status.Indet =>
        acFilter s fuel c (i + 1) minW (maxW + c.weight i)
    else (c, minW, maxW)

/-- `AppendClause` (solver.go:660-694): add a new problem constraint.
Undo to level 1, filter the literals against the level-1 bindings, then
return unchanged / set Unsat / propagate units / attach, comparing the
accumulated weights against the original cardinality. -/
def AppendClause (s : Solver) (clause : Clause) : Solver :=
  let s := s.cleanupBindings 1
  let card := clause.cardinality
  let r := s.acFilter clause.lits.length clause 0 0 0
  let c' := r.1
  let minW := r.2.1
  let maxW := r.2.2
  if card ≤ minW then s
  else if maxW < card then { s with status := Status.Unsat }
  else if maxW = card then s.propagateUnits c'.lits
  else s.appendClauseI c'

/-- `satClause` (solver.go:299-313): true iff the constraint is satisfied by
a literal assigned at the top level; binary clauses, constraints with
cardinality ≠ 1 and pseudo-Boolean constraints are never reported. -/
def satClause (s : Solver) (c : Clause) : Bool :=
  if c.lenC = 2 ∨ c.cardinality ≠ 1 ∨ c.pseudoBoolean then false
  else
    c.lits.any fun lit =>
      let assign := s.model.getD lit.varOf 0
      (assign = 1 && lit.isPositive) || (assign = -1 && !lit.isPositive)

/-- Modelled from the spec: §4.3 detach — `tryUnwatchClause` (not under
src/) removes the constraint from the watcher lists. -/
def tryUnwatchClause (s : Solver) (cid : Nat) : Solver :=
  { s with watched := s.watched.erase cid }

/-- The per-removal bookkeeping of `rmSatClauses` (solver.go:321-327):
unwatch the clause and clear a reason pointer that references it. -/
def rmSatBookkeep (s : Solver) (cid : Nat) : Solver :=
  let s := s.tryUnwatchClause cid
  let v := ((s.store.getD cid (NewClause [])).first).varOf
  if s.reason.getD v none = some cid then { s with reason := s.reason.set v none }
  else s

/-- The per-id satisfaction test of the `rmSatClauses` loops
(solver.go:321/337): `s.satClause(c)` for the stored clause `c`. -/
def satId (s : Solver) (cid : Nat) : Bool :=
  s.satClause (s.store.getD cid (NewClause []))

/-- The swap-removal loop of `rmSatClauses` (solver.go:318-332): two-pointer
scan keeping indices `[0, i)`, overwriting a satisfied entry with the entry
at position `e - 1` and shrinking the live region `[0, e)`; at the end the
slice is truncated to the live region (solver.go:332/348).  The Go loop
runs while `i <= j` (here `i < e` with `e = j + 1`) and each step lowers
`e - i` by one; that quantity is passed as explicit fuel so the recursion
is structural. -/
def rmSatLoop : Nat → Solver → List Nat → Nat → Nat → Solver × List Nat
  | 0, s, arr, _, e => (s, arr.take e)
  | fuel + 1, s, arr, i, e =>
    if i < e then
      let cid := arr.getD i 0
      if s.satId cid then
        rmSatLoop fuel (s.rmSatBookkeep cid) (arr.set i (arr.getD (e - 1) 0)) i (e - 1)
      else
        rmSatLoop fuel s arr (i + 1) e
    else (s, arr.take e)

/-- `rmSatClauses` (solver.go:317-349): remove every top-level-satisfied
clause from the problem database and from the learned database. -/
def rmSatClauses (s : Solver) : Solver :=
  let r1 := rmSatLoop s.pbClauses.length s s.pbClauses 0 s.pbClauses.length
  let s1 := { r1.1 with pbClauses := r1.2 }
  let r2 := rmSatLoop s1.learnedDB.length s1 s1.learnedDB 0 s1.learnedDB.length
  { r2.1 with learnedDB := r2.2 }

/-- `Model` (solver.go:698-707): the boolean bindings of the last recorded
model; the Go method panics when `lastModel` is nil, modelled as `none`. -/
def modelFn (s : Solver) : Option (List Bool) :=
  s.lastModel.map fun m => m.map (fun lvl => decide (0 < lvl))

/-- `ModelMap` (solver.go:711-720): like `modelFn` but keyed by the 1-based
variable index; the Go method panics when `lastModel` is nil. -/
def modelMapFn (s : Solver) : Option (List (Nat × Bool)) :=
  s.lastModel.map fun m =>
    (List.range m.length).map (fun i => (i + 1, decide (0 < m.getD i 0)))

end Solver

/-- Modelled from the spec: §4.4/§4.6 — the outcome of one completed run of
`search` (the propagation and conflict-analysis engine is not under src/):
either Unsat, or Sat together with the assignment state the search ends in
(model, trail and reason pointers). -/
structure SearchResp where
  model : List Int
  trail : List Lit
  reason : List (Option Nat)
deriving DecidableEq, Repr

/-- A script of search outcomes, one entry per completed `search` run:
`none` is an Unsat outcome, `some r` a Sat outcome ending in state `r`. -/
abbrev Script := List (Option SearchResp)

namespace Solver

/-- Modelled from the spec: §4.6 — `search` (solver.go:407-412) drives the
decide/propagate/analyze loop through code that is not under src/; one
completed run is taken from the script.  An empty script leaves the status
Indet (the callers then run out of fuel). -/
def searchS (s : Solver) (script : Script) : Solver × Script :=
  match script with
  | [] => (s, [])
  | none :: rest => ({ s with status := Status.Unsat }, rest)
  | some r :: rest =>
    ({ s with status := Status.Sat, model := r.model, trail := r.trail,
              reason := r.reason }, rest)

/-- `Solve` (solver.go:415-467): an already-Unsat solver returns Unsat at
once; otherwise the status is reset to Indet and `search` runs until the
status is decided (one script entry), and a Sat outcome records the model
in `lastModel`. -/
def SolveS (s : Solver) (script : Script) : Status × Solver × Script :=
  if s.status = Status.Unsat then (Status.Unsat, s, script)
  else
    let s1 := { s with status := Status.Indet }
    let r := s1.searchS script
    let s2 := r.1
    if s2.status = Status.Sat then
      (Status.Sat, { s2 with lastModel := some s2.model }, r.2)
    else (s2.status, s2, r.2)

/-- Whether a literal is true under a (total or partial) model of signed
levels — the test `(s.model[lit.Var()] > 0) == lit.IsPositive()` used by
the cost computation in `Optimal`/`Minimize` (solver.go:764/827). -/
def litTrue (m : List Int) (l : Lit) : Bool :=
  decide (0 < m.getD l.varOf 0) == l.isPositive

/-- The weights of the objective literals: `minWeights`, or all ones when
absent (solver.go:765-770/828-833). -/
def objWeights (s : Solver) : List Int :=
  match s.minWeights with
  | none => List.replicate ((s.minLits.getD []).length) 1
  | some ws => ws

/-- The objective cost of the current model (solver.go:762-771/825-834):
sum of the weights of the objective literals it makes true. -/
def computeCost (s : Solver) : Int :=
  (((s.minLits.getD []).zip s.objWeights).map
    (fun p => if litTrue s.model p.1 then p.2 else 0)).sum

/-- `maxCost` (solver.go:743-750/806-813): the number of objective literals
when no weights are given, else the sum of the weights. -/
def maxCostOf (s : Solver) : Int :=
  match s.minWeights with
  | none => ((s.minLits.getD []).length : Int)
  | some ws => ws.sum

/-- Insertion into a weight-descending list of (literal, weight) pairs. -/
def insertDesc (p : Lit × Int) : List (Lit × Int) → List (Lit × Int)
  | [] => [p]
  | q :: qs => if q.2 ≤ p.2 then p :: q :: qs else q :: insertDesc p qs

/-- Insertion sort of (literal, weight) pairs by decreasing weight. -/
def sortPairs : List (Lit × Int) → List (Lit × Int)
  | [] => []
  | p :: ps => insertDesc p (sortPairs ps)

/-- The assumption setup of `Optimal`/`Minimize` (solver.go:751-757 and
814-820): negate every objective literal and sort the (assumption, weight)
pairs by decreasing weight (`sort.Sort` with `wLits.Less(i,j) =
weights[i] > weights[j]`, solver.go:854-865, which keeps literals and
weights paired through `Swap`).  Go's sort leaves the order of equal
weights unspecified; insertion sort realizes one such order and no claim
depends on which.  When `minWeights` is nil the Go code builds an empty
weight slice (and `sort.Sort` would crash on two or more literals); the
theorems below therefore take explicit weights. -/
def sortedAsumptions (ls : List Lit) (ws : List Int) : List (Lit × Int) :=
  sortPairs ((ls.map Lit.negation).zip ws)

/-- One iteration's record of the optimization loop: the cost of the model
just found and, unless the loop stopped at cost 0, the tightening
constraint handed to `AppendClause`. -/
structure IterStep where
  cost : Int
  appended : Option Clause
deriving DecidableEq, Repr

/-- The optimization loop shared by `Minimize` (solver.go:823-850) and —
up to result emission — `Optimal` (solver.go:760-789).  Per iteration: save
the model, compute its cost, stop at cost 0, otherwise append the tightening
PB constraint built from the sorted assumptions, rebuild the order heap and
solve again; a non-Sat answer ends the loop with the current cost.
`none` means the fuel ran out (the Go loop only terminates through the
solver's answers).  Also returns the per-iteration log. -/
def minimizeLoop (weightsSorted : List Int) (maxCost : Int) :
    Nat → Solver → Script → List IterStep → Option (Int × Solver × List IterStep)
  | 0, _, _, _ => none
  | fuel + 1, s, script, log =>
    let s := { s with lastModel := some s.model }
    let cost := s.computeCost
    if cost = 0 then some (0, s, log ++ [⟨0, none⟩])
    else
      let clause := NewPBClause s.asumptions weightsSorted (maxCost - cost + 1)
      let s := s.AppendClause clause
      let s := s.rebuildOrderHeap
      let r := s.SolveS script
      if r.1 = Status.Sat then
        minimizeLoop weightsSorted maxCost fuel r.2.1 r.2.2 (log ++ [⟨cost, some clause⟩])
      else some (cost, r.2.1, log ++ [⟨cost, some clause⟩])

/-- `Minimize` (solver.go:798-851).  Returns the cost, the final solver
state and the iteration log (or `none` when the fuel runs out). -/
def MinimizeR (fuel : Nat) (s : Solver) (script : Script) :
    Option (Int × Solver × List IterStep) :=
  let r0 := s.SolveS script
  let s := r0.2.1
  let script := r0.2.2
  if r0.1 = Status.Unsat then some (-1, s, [])
  else
    match s.minLits with
    | none => some (0, s, [])
    | some ls =>
      let maxCost := s.maxCostOf
      let sorted := sortedAsumptions ls (s.minWeights.getD [])
      let s := { s with asumptions := sorted.map Prod.fst,
                        lastModel := some (List.replicate s.model.length 0) }
      minimizeLoop (sorted.map Prod.snd) maxCost fuel s script []

/-- The result record of `Optimal` (`Result`, defined outside solver.go):
status, model map and cost.  Modelled from the spec: §4.9
`Optimal(models_sink, cancel) → (Status, Model, cost)`. -/
structure Result where
  status : Status
  modelM : List (Nat × Bool)
  weight : Int
deriving DecidableEq, Repr

/-- The loop of `Optimal` (solver.go:760-789): same shape as
`minimizeLoop` but each iteration builds and emits a `Result`; the
result of the last iteration is returned when the re-solve fails. -/
def optimalLoop (weightsSorted : List Int) (maxCost : Int) :
    Nat → Solver → Script → List Result → List IterStep →
    Option (Result × List Result × Solver × List IterStep)
  | 0, _, _, _, _ => none
  | fuel + 1, s, script, emitted, log =>
    let s := { s with lastModel := some s.model }
    let cost := s.computeCost
    let res : Result := ⟨Status.Sat, (s.modelMapFn).getD [], cost⟩
    let emitted := emitted ++ [res]
    if cost = 0 then some (res, emitted, s, log ++ [⟨0, none⟩])
    else
      let clause := NewPBClause s.asumptions weightsSorted (maxCost - cost + 1)
      let s := s.AppendClause clause
      let s := s.rebuildOrderHeap
      let r := s.SolveS script
      if r.1 = Status.Sat then
        optimalLoop weightsSorted maxCost fuel r.2.1 r.2.2 emitted
          (log ++ [⟨cost, some clause⟩])
      else some (res, emitted, r.2.1, log ++ [⟨cost, some clause⟩])

/-- `Optimal` (solver.go:725-791).  Returns the final result, the list of
emitted intermediate results, the final state and the iteration log. -/
def OptimalR (fuel : Nat) (s : Solver) (script : Script) :
    Option (Result × List Result × Solver × List IterStep) :=
  let r0 := s.SolveS script
  let s := r0.2.1
  let script := r0.2.2
  if r0.1 = Status.Unsat then some (⟨Status.Unsat, [], 0⟩, [], s, [])
  else
    match s.minLits with
    | none =>
      let s := { s with lastModel := some s.model }
      some (⟨Status.Sat, (s.modelMapFn).getD [], 0⟩, [], s, [])
    | some ls =>
      let maxCost := s.maxCostOf
      let sorted := sortedAsumptions ls (s.minWeights.getD [])
      let s := { s with asumptions := sorted.map Prod.fst,
                        lastModel := some (List.replicate s.model.length 0) }
      optimalLoop (sorted.map Prod.snd) maxCost fuel s script [] []

/-- `decisionLits` (solver.go:589-604): the negations of the decision
literal of every level ≥ 2, placed at index `level - 2` in a slice of
length `topLevel - 1` (where `topLevel` is the level of the last trail
literal).  The Go code panics on an empty trail or an out-of-range level;
here these read defaults (the theorems assume well-formed states). -/
def decisionLits (s : Solver) : List Lit :=
  let lastLit := s.trail.getLastD 0
  let lvls := (s.model.getD lastLit.varOf 0).natAbs
  (List.range s.reason.length).foldl
    (fun lits i =>
      match s.reason.getD i none with
      | some _ => lits
      | none =>
        let lvl := (s.model.getD i 0).natAbs
        if 1 < lvl then
          if s.model.getD i 0 < 0 then lits.set (lvl - 2) (IntToLit (i + 1))
          else lits.set (lvl - 2) (IntToLit (-(i : Int) - 1))
        else lits)
    (List.replicate (lvls - 1) (0 : Lit))

/-- The post-Sat step of `Enumerate` (solver.go:493-509), duplicated
verbatim in `CountModels` (solver.go:561-577): reset the status, compute
the decision literals and dispatch on their number; in the blocking-clause
case the returned pair is the literal/level handed to
`propagateAndSearch`, whose search work belongs to the oracle. -/
def enumerateStep (s : Solver) : Solver × Option (Lit × Int) :=
  let s := { s with status := Status.Indet }
  let lits := s.decisionLits
  if lits.length = 0 then ({ s with status := Status.Unsat }, none)
  else if lits.length = 1 then (s.propagateUnits lits, none)
  else
    let c := NewClause lits
    let cid := s.store.length
    let s := s.appendClauseI c
    let lit := lits.getLastD 0
    let v := lit.varOf
    let lvl := ((s.model.getD v 0).natAbs : Int) - 1
    let s := s.cleanupBindings lvl
    let s := { s with reason := s.reason.set v (some cid) }
    (s, some (lit, lvl))

/-- The loop of `Enumerate` (solver.go:480-512): run `search` until the
status is decided, count and process each Sat outcome through
`enumerateStep`; `emitModels` mirrors `models != nil` (only then is the
model copied into `lastModel` and emitted, solver.go:489-492). -/
def enumLoop (emitModels : Bool) :
    Nat → Solver → Script → Nat → Option (Nat × Solver)
  | 0, _, _, _ => none
  | fuel + 1, s, script, nb =>
    if s.status = Status.Unsat then some (nb, s)
    else if s.status = Status.Indet then
      let r := s.searchS script
      match script with
      | [] => none
      | _ :: _ => enumLoop emitModels fuel r.1 r.2 nb
    else if s.status = Status.Sat then
      let s := if emitModels then { s with lastModel := some s.model } else s
      let s := (s.enumerateStep).1
      enumLoop emitModels fuel s script (nb + 1)
    else none

/-- `Enumerate` (solver.go:472-513): allocate an all-zero `lastModel`
(solver.go:476) and run the enumeration loop. -/
def EnumerateR (emitModels : Bool) (fuel : Nat) (s : Solver) (script : Script) :
    Option (Nat × Solver) :=
  let s := { s with lastModel := some (List.replicate s.model.length 0) }
  enumLoop emitModels fuel s script 0

end Solver

/-! ## The `bf` formula package (src/bf/bf.go) -/

/-- The `Formula` interface of src/bf/bf.go together with its concrete
implementations: the constants, named variables (with the dummy flag),
literals, negation, conjunction and disjunction. -/
inductive Formula where
  | trueConst : Formula
  | falseConst : Formula
  | varF : String → Bool → Formula
  | litF : Bool → String → Bool → Formula
  | notF : Formula → Formula
  | andF : List Formula → Formula
  | orF : List Formula → Formula

namespace Formula

/-- The per-element dispatch of `and.nnf` (src/bf/bf.go:179-193), applied to
the already-normalized subformula: inner conjunctions are spliced in, `True`
is dropped, `False` aborts the whole conjunction (`none`), anything else is
appended. -/
def andStep : Option (List Formula) → Formula → Option (List Formula)
  | none, _ => none
  | some res, .andF subs => some (res ++ subs)
  | some res, .trueConst => some res
  | some _, .falseConst => none
  | some res, f => some (res ++ [f])

/-- The final length dispatch of `and.nnf` (src/bf/bf.go:194-199): a single
element is returned bare, an empty conjunction becomes `False`. -/
def andFinish (l : List Formula) : Formula :=
  match l.foldl andStep (some []) with
  | none => .falseConst
  | some res =>
    if res.length = 1 then res.headD .falseConst
    else if res.length = 0 then .falseConst
    else .andF res

/-- The per-element dispatch of `or.nnf` (src/bf/bf.go:217-231): inner
disjunctions are spliced in, `False` is dropped, `True` aborts the whole
disjunction. -/
def orStep : Option (List Formula) → Formula → Option (List Formula)
  | none, _ => none
  | some res, .orF subs => some (res ++ subs)
  | some res, .falseConst => some res
  | some _, .trueConst => none
  | some res, f => some (res ++ [f])

/-- The final length dispatch of `or.nnf` (src/bf/bf.go:232-237): a single
element is returned bare, an empty disjunction becomes `True`. -/
def orFinish (l : List Formula) : Formula :=
  match l.foldl orStep (some []) with
  | none => .trueConst
  | some res =>
    if res.length = 1 then res.headD .trueConst
    else if res.length = 0 then .trueConst
    else .orF res

mutual

/-- The `nnf()` methods of src/bf/bf.go: constants and literals are fixed
points, a variable becomes an unsigned literal (bf.go:112-114), a negation
dispatches on its argument (`not.nnf`, bf.go:144-166), and `and.nnf` /
`or.nnf` normalize each subformula and fold it through the dispatch above.
In `not.nnf` the Go code wraps each normalized-negated subformula back into
an `or`/`and` value and calls `nnf()` on it once more; that second pass
only re-runs the fold on formulas already in normal form, which the fold
maps to themselves, so it is omitted here (`nnf_idem` below proves the
corresponding idempotence). -/
def nnf : Formula → Formula
  | .trueConst => .trueConst
  | .falseConst => .falseConst
  | .varF n d => .litF false n d
  | .litF s n d => .litF s n d
  | .notF f => nnfNot f
  | .andF subs => andFinish (nnfList subs)
  | .orF subs => orFinish (nnfList subs)
termination_by f => 2 * sizeOf f
decreasing_by all_goals (simp_wf; try omega)

/-- `not{f}.nnf()` (src/bf/bf.go:144-166): negation pushed through `f`. -/
def nnfNot : Formula → Formula
  | .trueConst => .falseConst
  | .falseConst => .trueConst
  | .varF n d => .litF true n d
  | .litF s n d => .litF (!s) n d
  | .notF f => nnf f
  | .andF subs => orFinish (nnfNotList subs)
  | .orF subs => andFinish (nnfNotList subs)
termination_by f => 2 * sizeOf f + 1
decreasing_by all_goals (simp_wf; try omega)

/-- `nnf` mapped over a list of subformulas (the `s.nnf()` calls inside the
`and.nnf`/`or.nnf` loops). -/
def nnfList : List Formula → List Formula
  | [] => []
  | f :: fs => nnf f :: nnfList fs
termination_by l => 2 * sizeOf l + 1
decreasing_by all_goals (simp_wf; try omega)

/-- `nnfNot` mapped over a list of subformulas (the `not{sub}.nnf()` calls
inside `not.nnf`, src/bf/bf.go:150-164). -/
def nnfNotList : List Formula → List Formula
  | [] => []
  | f :: fs => nnfNot f :: nnfNotList fs
termination_by l => 2 * sizeOf l + 2
decreasing_by all_goals (simp_wf; try omega)

end

end Formula

/-! ## Sample states used by the concrete witnesses -/

/-- A fresh two-variable solver, as `New` builds it for an empty problem
over two variables (solver.go:86-114). -/
def sampleA : Solver :=
  { nbVars := 2, status := Status.Indet, model := [0, 0], trail := [],
    reason := [none, none], polarity := [false, false], queue := [0, 1],
    store := [], locks := [], pbClauses := [], learnedDB := [], watched := [],
    minLits := none, minWeights := none, asumptions := [], lastModel := none }

/-- A one-variable optimization solver: minimize `x1` (weight 1). -/
def sampleOpt : Solver :=
  { nbVars := 1, status := Status.Indet, model := [0], trail := [],
    reason := [none], polarity := [true], queue := [0],
    store := [], locks := [], pbClauses := [], learnedDB := [], watched := [],
    minLits := some [0], minWeights := some [1], asumptions := [],
    lastModel := none }

/-- A search script for `sampleOpt`: first `x1` true at level 2,
then `x1` false at level 1. -/
def sampleOptScript : Script :=
  [some (SearchResp.mk [2] [0] [none]), some (SearchResp.mk [-1] [1] [none])]

/-! ## Claim theorems -/

/-- C9: for every solver whose status is already Unsat, `Solve` returns
Unsat immediately: the state is returned unchanged and the search oracle is
never consulted (the script is not consumed). -/
theorem solve_unsat_returns_immediately (s : Solver) (script : Script)
    (h : s.status = Status.Unsat) :
    s.SolveS script = (Status.Unsat, s, script) := by
  simp [Solver.SolveS, h]

/-- Witness for C9 at a concrete Unsat solver. -/
theorem solve_unsat_returns_immediately_witness :
    ({ sampleA with status := Status.Unsat } : Solver).status = Status.Unsat ∧
      ({ sampleA with status := Status.Unsat } : Solver).SolveS sampleOptScript =
        (Status.Unsat, { sampleA with status := Status.Unsat }, sampleOptScript) :=
  ⟨rfl, solve_unsat_returns_immediately _ _ rfl⟩

namespace Formula

/-- `nnfList` is `nnf` mapped over the list. -/
theorem nnfList_eq_map (l : List Formula) : nnfList l = l.map nnf := by
  induction l with
  | nil => simp [nnfList]
  | cons f fs ih => simp [nnfList, ih]

/-- Folding the `and.nnf` dispatch over a list of `True`s drops them all. -/
theorem foldl_andStep_trueConst (l : List Formula) (acc : List Formula)
    (h : ∀ f ∈ l, f = trueConst) :
    l.foldl andStep (some acc) = some acc := by
  induction l generalizing acc with
  | nil => rfl
  | cons f fs ih =>
    have hf := h f (List.mem_cons_self f fs)
    subst hf
    simpa [andStep] using ih acc (fun g hg => h g (List.mem_cons_of_mem _ hg))

/-- Folding the `or.nnf` dispatch over a list of `False`s drops them all. -/
theorem foldl_orStep_falseConst (l : List Formula) (acc : List Formula)
    (h : ∀ f ∈ l, f = falseConst) :
    l.foldl orStep (some acc) = some acc := by
  induction l generalizing acc with
  | nil => rfl
  | cons f fs ih =>
    have hf := h f (List.mem_cons_self f fs)
    subst hf
    simpa [orStep] using ih acc (fun g hg => h g (List.mem_cons_of_mem _ hg))

/-- C10: `and.nnf` yields `False` on an empty conjunction and whenever every
subformula normalizes to `True`; dually `or.nnf` yields `True` on an empty
disjunction and whenever every subformula normalizes to `False`. -/
theorem nnf_empty_and_all_true (subs subs' : List Formula)
    (hT : ∀ f ∈ subs, nnf f = trueConst)
    (hF : ∀ f ∈ subs', nnf f = falseConst) :
    nnf (andF []) = falseConst ∧ nnf (orF []) = trueConst ∧
      nnf (andF subs) = falseConst ∧ nnf (orF subs') = trueConst := by
  refine ⟨by simp [nnf, nnfList, andFinish, andStep],
          by simp [nnf, nnfList, orFinish, orStep], ?_, ?_⟩
  · have : nnfList subs = subs.map nnf := nnfList_eq_map subs
    have hall : ∀ f ∈ nnfList subs, f = trueConst := by
      intro f hf
      rw [this] at hf
      obtain ⟨g, hg, rfl⟩ := List.mem_map.mp hf
      exact hT g hg
    have := foldl_andStep_trueConst (nnfList subs) [] hall
    simp [nnf, andFinish, this]
  · have : nnfList subs' = subs'.map nnf := nnfList_eq_map subs'
    have hall : ∀ f ∈ nnfList subs', f = falseConst := by
      intro f hf
      rw [this] at hf
      obtain ⟨g, hg, rfl⟩ := List.mem_map.mp hf
      exact hF g hg
    have := foldl_orStep_falseConst (nnfList subs') [] hall
    simp [nnf, orFinish, this]

/-- Witness for C10: concrete non-empty lists of subformulas that normalize
to all-`True` (resp. all-`False`). -/
theorem nnf_empty_and_all_true_witness :
    nnf (andF [trueConst, notF falseConst]) = falseConst ∧
      nnf (orF [falseConst, notF trueConst]) = trueConst :=
  ⟨(nnf_empty_and_all_true [trueConst, notF falseConst] [falseConst, notF trueConst]
      (by intro f hf; fin_cases hf <;> simp [nnf, nnfNot])
      (by intro f hf; fin_cases hf <;> simp [nnf, nnfNot])).2.2.1,
   (nnf_empty_and_all_true [trueConst, notF falseConst] [falseConst, notF trueConst]
      (by intro f hf; fin_cases hf <;> simp [nnf, nnfNot])
      (by intro f hf; fin_cases hf <;> simp [nnf, nnfNot])).2.2.2⟩

end Formula

/-- C8 counterexample: `Enumerate` on an unsatisfiable run (solver.go:476
allocates `lastModel` before any model is found).  Afterwards the status is
Unsat — not Sat — yet `Model()` does not panic: it returns the all-false
model, because the panic guard tests `lastModel == nil`, not the status. -/
theorem model_not_sat_no_panic_counterexample :
    (Solver.EnumerateR false 3 sampleA [none]).map
        (fun p => (p.2.status, p.2.modelFn, p.2.modelMapFn)) =
      some (Status.Unsat, some [false, false], some [(1, false), (2, false)]) := by
  decide

/-- C8 (amended): `Model()` and `ModelMap()` panic exactly when no model has
been recorded (`lastModel` is nil); after a Sat outcome of `Solve` the
recorded model is returned, and it stays available even if the status later
leaves Sat. -/
theorem model_panics_iff_no_model_recorded (s : Solver) (script : Script)
    (h : (s.SolveS script).1 = Status.Sat) :
    (s.modelFn = none ↔ s.lastModel = none) ∧
      (s.modelMapFn = none ↔ s.lastModel = none) ∧
      ((s.SolveS script).2.1.modelFn).isSome = true := by
  refine ⟨by simp [Solver.modelFn], by simp [Solver.modelMapFn], ?_⟩
  unfold Solver.SolveS at h ⊢
  by_cases hs : s.status = Status.Unsat
  · simp [hs] at h
  · simp only [hs, if_false, if_neg] at h ⊢
    rcases hsr : (Solver.searchS { s with status := Status.Indet } script) with ⟨s2, rest⟩
    simp only [hsr] at h ⊢
    by_cases h2 : s2.status = Status.Sat
    · simp [h2, Solver.modelFn]
    · simp [h2] at h

/-- Witness for C8's amended theorem at a concrete Sat run. -/
theorem model_panics_iff_no_model_recorded_witness :
    (sampleOpt.SolveS sampleOptScript).1 = Status.Sat ∧
      (sampleOpt.modelFn = none ↔ sampleOpt.lastModel = none) ∧
      ((sampleOpt.SolveS sampleOptScript).2.1.modelFn).isSome = true := by
  have h : (sampleOpt.SolveS sampleOptScript).1 = Status.Sat := by decide
  have := model_panics_iff_no_model_recorded sampleOpt sampleOptScript h
  exact ⟨h, this.1, this.2.2⟩

/-! ## Generic list access lemmas -/

theorem getD_set_same {α} (xs : List α) (i : Nat) (a : α) :
    (xs.set i a).getD i a = a := by
  by_cases h : i < xs.length
  · simp [List.getD_eq_getElem?_getD, List.getElem?_set_self h]
  · rw [List.set_eq_of_length_le (by omega)]
    simp [List.getD_eq_getElem?_getD, List.getElem?_eq_none (by omega : xs.length ≤ i)]

theorem getD_set_other {α} (xs : List α) {i j : Nat} (h : i ≠ j) (a d : α) :
    (xs.set i a).getD j d = xs.getD j d := by
  simp [List.getD_eq_getElem?_getD, List.getElem?_set_ne h]

namespace Solver

/-! ## Backtracking (C5) -/

/-- Fields `unbindLit` leaves untouched. -/
theorem unbindLit_preserved (s : Solver) (l : Lit) :
    (s.unbindLit l).trail = s.trail ∧ (s.unbindLit l).status = s.status ∧
      (s.unbindLit l).store = s.store ∧ (s.unbindLit l).pbClauses = s.pbClauses ∧
      (s.unbindLit l).learnedDB = s.learnedDB ∧ (s.unbindLit l).watched = s.watched ∧
      (s.unbindLit l).minLits = s.minLits ∧ (s.unbindLit l).minWeights = s.minWeights ∧
      (s.unbindLit l).asumptions = s.asumptions ∧
      (s.unbindLit l).lastModel = s.lastModel ∧ (s.unbindLit l).nbVars = s.nbVars ∧
      (s.unbindLit l).locks.length = s.locks.length := by
  simp only [unbindLit]
  rcases h : s.reason.getD l.varOf none with _ | cid <;> simp [h]

/-- `unbindLit` clears the binding of the literal's variable. -/
theorem unbindLit_model (s : Solver) (l : Lit) :
    (s.unbindLit l).model = s.model.set l.varOf 0 := by
  simp only [unbindLit]
  rcases h : s.reason.getD l.varOf none with _ | cid <;> simp [h]

/-- `unbindLit` clears the reason of the literal's variable and no other. -/
theorem unbindLit_reason (s : Solver) (l : Lit) (v : GVar) :
    (s.unbindLit l).reason.getD v none =
      if v = l.varOf then none else s.reason.getD v none := by
  simp only [unbindLit]
  rcases hr : s.reason.getD l.varOf none with _ | cid
  · simp only [hr]
    by_cases hv : v = l.varOf
    · subst hv; simpa using hr
    · simp [hv]
  · simp only [hr]
    by_cases hv : v = l.varOf
    · subst hv
      simpa using getD_set_same s.reason l.varOf none
    · simpa [hv] using
        getD_set_other s.reason (show l.varOf ≠ v from fun h => hv h.symm) none none

/-- `unbindLit` puts the literal's variable into the order heap. -/
theorem unbindLit_queue (s : Solver) (l : Lit) (v : GVar) :
    v ∈ (s.unbindLit l).queue ↔ v ∈ s.queue ∨ v = l.varOf := by
  simp only [unbindLit, queueInsert]
  rcases hr : s.reason.getD l.varOf none with _ | cid <;>
    · simp only [hr]
      split
      · constructor
        · intro h; exact Or.inl h
        · rintro (h | rfl)
          · exact h
          · assumption
      · constructor
        · intro h
          rcases List.mem_cons.mp h with rfl | h
          · exact Or.inr rfl
          · exact Or.inl h
        · rintro (h | rfl)
          · exact List.mem_cons_of_mem _ h
          · exact List.mem_cons_self _ _

/-- `unbindLit` decrements the lock count of the reason clause. -/
theorem unbindLit_locks (s : Solver) (l : Lit) (cid : Nat)
    (hc : cid < s.locks.length) :
    (s.unbindLit l).locks.getD cid 0 =
      if s.reason.getD l.varOf none = some cid then s.locks.getD cid 0 - 1
      else s.locks.getD cid 0 := by
  simp only [unbindLit]
  rcases hr : s.reason.getD l.varOf none with _ | cid0
  · simp [hr]
  · simp only [hr]
    by_cases hv : cid0 = cid
    · subst hv
      simp [List.getD_eq_getElem?_getD, List.getElem?_set_self hc,
        List.getElem?_eq_getElem hc]
    · simp [getD_set_other _ hv, Option.some_inj, hv]

/-- The variables of `L` after the unbinding fold: all cleared from the
model and the reasons, all present in the order heap, with each cleared
reason unlocking its clause once. -/
theorem unbind_foldl_spec (L : List Lit) : ∀ (s : Solver),
    (L.map Lit.varOf).Nodup →
    (∀ v : GVar, (L.foldl unbindLit s).model.getD v 0
        = if v ∈ L.map Lit.varOf then 0 else s.model.getD v 0) ∧
    (∀ v : GVar, (L.foldl unbindLit s).reason.getD v none
        = if v ∈ L.map Lit.varOf then none else s.reason.getD v none) ∧
    (∀ v : GVar, v ∈ (L.foldl unbindLit s).queue ↔ v ∈ s.queue ∨ v ∈ L.map Lit.varOf) ∧
    (∀ cid, cid < s.locks.length →
       (L.foldl unbindLit s).locks.getD cid 0
         = s.locks.getD cid 0
             - L.countP (fun l => s.reason.getD l.varOf none == some cid)) ∧
    (L.foldl unbindLit s).trail = s.trail ∧
    (L.foldl unbindLit s).status = s.status ∧
    (L.foldl unbindLit s).locks.length = s.locks.length := by
  induction L with
  | nil => intro s _; simp
  | cons l L ih =>
    intro s hnd
    rw [List.map_cons] at hnd
    obtain ⟨hlv, hnd'⟩ := List.nodup_cons.mp hnd
    have hfold : (l :: L).foldl unbindLit s = L.foldl unbindLit (s.unbindLit l) := rfl
    obtain ⟨ihm, ihr, ihq, ihl, iht, ihs, ihll⟩ := ih (s.unbindLit l) hnd'
    have hpres := unbindLit_preserved s l
    refine ⟨?_, ?_, ?_, ?_, ?_, ?_, ?_⟩
    · intro v
      rw [hfold, ihm v, List.map_cons]
      by_cases hv : v ∈ L.map Lit.varOf
      · rw [if_pos hv, if_pos (List.mem_cons_of_mem _ hv)]
      · by_cases hvl : v = l.varOf
        · subst hvl
          rw [if_neg hv, if_pos (List.mem_cons_self _ _), unbindLit_model]
          exact getD_set_same s.model l.varOf 0
        · rw [if_neg hv, if_neg (by simp [List.mem_cons, hv, hvl]), unbindLit_model,
            getD_set_other s.model (show l.varOf ≠ v from fun h => hvl h.symm) 0 0]
    · intro v
      rw [hfold, ihr v, List.map_cons]
      by_cases hv : v ∈ L.map Lit.varOf
      · rw [if_pos hv, if_pos (List.mem_cons_of_mem _ hv)]
      · rw [if_neg hv, unbindLit_reason]
        by_cases hvl : v = l.varOf
        · rw [if_pos hvl, if_pos (by rw [hvl]; exact List.mem_cons_self _ _)]
        · rw [if_neg hvl, if_neg (by simp [List.mem_cons, hv, hvl])]
    · intro v
      rw [hfold, ihq v, unbindLit_queue]
      simp only [List.map_cons, List.mem_cons]
      tauto
    · intro cid hc
      have hc' : cid < (s.unbindLit l).locks.length := by
        rw [hpres.2.2.2.2.2.2.2.2.2.2.2]; exact hc
      rw [hfold, ihl cid hc', unbindLit_locks s l cid hc]
      have hcong : L.countP (fun l' => (s.unbindLit l).reason.getD l'.varOf none == some cid)
          = L.countP (fun l' => s.reason.getD l'.varOf none == some cid) := by
        apply List.countP_congr
        intro l' hl'
        have : l'.varOf ≠ l.varOf := by
          intro h
          exact hlv (h ▸ List.mem_map_of_mem Lit.varOf hl')
        rw [unbindLit_reason, if_neg this]
      rw [hcong, List.countP_cons]
      by_cases hhit : s.reason.getD l.varOf none = some cid
      · rw [if_pos hhit]
        have hb : (s.reason.getD l.varOf none == some cid) = true := by
          simpa using hhit
        rw [hb]
        simp only [if_true]
        omega
      · rw [if_neg hhit]
        have hb : (s.reason.getD l.varOf none == some cid) = false := by
          simpa using hhit
        rw [hb]
        simp only [Bool.false_eq_true, if_false]
        omega
    · rw [hfold, iht, hpres.1]
    · rw [hfold, ihs, hpres.2.1]
    · rw [hfold, ihll, hpres.2.2.2.2.2.2.2.2.2.2.2]

/-- `resetOptimPolarity` only changes the polarity vector. -/
theorem resetOptim_preserved (s : Solver) :
    (s.resetOptimPolarity).model = s.model ∧ (s.resetOptimPolarity).trail = s.trail ∧
      (s.resetOptimPolarity).reason = s.reason ∧ (s.resetOptimPolarity).queue = s.queue ∧
      (s.resetOptimPolarity).locks = s.locks ∧ (s.resetOptimPolarity).status = s.status ∧
      (s.resetOptimPolarity).store = s.store ∧
      (s.resetOptimPolarity).pbClauses = s.pbClauses ∧
      (s.resetOptimPolarity).learnedDB = s.learnedDB ∧
      (s.resetOptimPolarity).watched = s.watched ∧
      (s.resetOptimPolarity).lastModel = s.lastModel ∧
      (s.resetOptimPolarity).nbVars = s.nbVars ∧
      (s.resetOptimPolarity).minLits = s.minLits ∧
      (s.resetOptimPolarity).minWeights = s.minWeights ∧
      (s.resetOptimPolarity).asumptions = s.asumptions := by
  unfold resetOptimPolarity
  split <;> simp

/-- C5: backtrack coherence of `cleanupBindings`.  Under the trail
invariants (every variable bound above the target level is on the trail,
trail variables are distinct, trail levels are non-decreasing), undoing to
level `lvl`: (a) every literal remaining on the trail is bound at a level
at most `lvl`; (b) every variable that was bound above `lvl` is unbound,
its reason is cleared and it is back in the order heap; (c) each cleared
reason clause is unlocked once; (d) the assignments at level at most `lvl`
survive on the trail with their bindings intact — in particular on restart
(`lvl = 1`) the level-1 assignments survive. -/
theorem cleanup_backtrack_coherence (s : Solver) (lvl : Int) (hlvl : 0 ≤ lvl)
    (hcons : ∀ v : GVar, lvl < ((s.model.getD v 0).natAbs : Int) →
      v ∈ s.trail.map Lit.varOf)
    (hnd : (s.trail.map Lit.varOf).Nodup)
    (hmono : s.trail.Pairwise (fun a b =>
      (s.model.getD a.varOf 0).natAbs ≤ (s.model.getD b.varOf 0).natAbs)) :
    (∀ l ∈ (s.cleanupBindings lvl).trail,
        (((s.cleanupBindings lvl).model.getD l.varOf 0).natAbs : Int) ≤ lvl) ∧
    (∀ v : GVar, lvl < ((s.model.getD v 0).natAbs : Int) →
        (s.cleanupBindings lvl).model.getD v 0 = 0 ∧
        (s.cleanupBindings lvl).reason.getD v none = none ∧
        v ∈ (s.cleanupBindings lvl).queue) ∧
    (∀ cid, cid < s.locks.length →
        (s.cleanupBindings lvl).locks.getD cid 0 = s.locks.getD cid 0 -
          s.trail.countP (fun l => s.aboveLvl lvl l &&
            (s.reason.getD l.varOf none == some cid))) ∧
    (∀ l ∈ s.trail, ((s.model.getD l.varOf 0).natAbs : Int) ≤ lvl →
        l ∈ (s.cleanupBindings lvl).trail ∧
        (s.cleanupBindings lvl).model.getD l.varOf 0 = s.model.getD l.varOf 0) := by
  rcases hfi : s.trail.findIdx? (s.aboveLvl lvl) with _ | i
  · -- nothing is bound above lvl
    have hall : ∀ l ∈ s.trail, s.aboveLvl lvl l = false :=
      List.findIdx?_eq_none_iff.mp hfi
    have hs' : s.cleanupBindings lvl = s.resetOptimPolarity := by
      unfold cleanupBindings
      rw [hfi]
    have hp := resetOptim_preserved s
    refine ⟨?_, ?_, ?_, ?_⟩
    · intro l hl
      rw [hs'] at hl ⊢
      rw [hp.2.1] at hl
      rw [hp.1]
      have := hall l hl
      simp only [aboveLvl, decide_eq_false_iff_not, not_lt] at this
      exact this
    · intro v hv
      exfalso
      obtain ⟨l, hl, hveq⟩ := List.mem_map.mp (hcons v hv)
      have := hall l hl
      simp only [aboveLvl, decide_eq_false_iff_not, not_lt, hveq] at this
      omega
    · intro cid _
      rw [hs', hp.2.2.2.2.1]
      have : s.trail.countP (fun l => s.aboveLvl lvl l &&
          (s.reason.getD l.varOf none == some cid)) = 0 := by
        rw [List.countP_eq_zero]
        intro l hl
        simp [hall l hl]
      rw [this]
      omega
    · intro l hl _
      rw [hs', hp.2.1, hp.1]
      exact ⟨hl, rfl⟩
  · -- the trail is cut at position i
    obtain ⟨hi, hPi, hmin⟩ := List.findIdx?_eq_some_iff_getElem.mp hfi
    have hs' : s.cleanupBindings lvl =
        Solver.resetOptimPolarity
          { (s.trail.drop i).foldl unbindLit s with trail := s.trail.take i } := by
      unfold cleanupBindings
      rw [hfi]
    have hnd2 : ((s.trail.drop i).map Lit.varOf).Nodup := by
      rw [List.map_drop]
      exact (List.drop_sublist i _).nodup hnd
    obtain ⟨ihm, ihr, ihq, ihl, iht, ihs, ihll⟩ :=
      unbind_foldl_spec (s.trail.drop i) s hnd2
    have hp := resetOptim_preserved
      ({ (s.trail.drop i).foldl unbindLit s with trail := s.trail.take i } : Solver)
    -- every literal in the dropped suffix is above lvl
    have hsuf : ∀ j (hj : j < (s.trail.drop i).length),
        s.aboveLvl lvl ((s.trail.drop i)[j]) = true := by
      intro j hj
      have hlen : i + j < s.trail.length := by
        have := hj
        simp only [List.length_drop] at this
        omega
      rw [List.getElem_drop]
      rcases Nat.eq_zero_or_pos j with rfl | hjpos
      · simpa using hPi
      · have hrel := List.pairwise_iff_getElem.mp hmono i (i + j) hi hlen (by omega)
        simp only [aboveLvl, decide_eq_true_eq] at hPi ⊢
        omega
    -- a literal of the suffix, by variable
    have hsufmem : ∀ v : GVar, lvl < ((s.model.getD v 0).natAbs : Int) →
        v ∈ (s.trail.drop i).map Lit.varOf := by
      intro v hv
      obtain ⟨l, hl, hveq⟩ := List.mem_map.mp (hcons v hv)
      obtain ⟨k, hk, hlk⟩ := List.mem_iff_getElem.mp hl
      have hki : i ≤ k := by
        by_contra hik
        have := hmin k (by omega)
        rw [hlk] at this
        simp only [aboveLvl, decide_eq_true_eq, hveq] at this
        omega
      have hk2 : k - i < (s.trail.drop i).length := by
        simp only [List.length_drop]
        omega
      refine List.mem_map.mpr ⟨(s.trail.drop i)[k - i], List.getElem_mem hk2, ?_⟩
      rw [List.getElem_drop]
      have : i + (k - i) = k := by omega
      simp only [this]
      rw [hlk, hveq]
    refine ⟨?_, ?_, ?_, ?_⟩
    · -- (a)
      intro l hl
      rw [hs'] at hl ⊢
      rw [hp.2.1] at hl
      rw [hp.1]
      simp only at hl ⊢
      rw [ihm l.varOf]
      by_cases hvm : l.varOf ∈ (s.trail.drop i).map Lit.varOf
      · rw [if_pos hvm]
        simpa using hlvl
      · rw [if_neg hvm]
        obtain ⟨k, hk, hlk⟩ := List.mem_iff_getElem.mp hl
        have hk' : k < i := by
          have := hk
          simp only [List.length_take] at this
          omega
        have hkt : k < s.trail.length := by
          have := hk
          simp only [List.length_take] at this
          omega
        have : (s.trail.take i)[k] = s.trail[k] := List.getElem_take _
        rw [this] at hlk
        have := hmin k hk'
        rw [hlk] at this
        simp only [aboveLvl, decide_eq_true_eq, not_lt] at this
        simpa using this
    · -- (b)
      intro v hv
      have hvm := hsufmem v hv
      rw [hs']
      rw [hp.1, hp.2.2.1]
      constructor
      · simp only
        rw [ihm v, if_pos hvm]
      constructor
      · simp only
        rw [ihr v, if_pos hvm]
      · have hq := hp.2.2.2.1
        rw [hq]
        simp only
        rw [ihq v]
        exact Or.inr hvm
    · -- (c) locks
      intro cid hc
      rw [hs', hp.2.2.2.2.1]
      simp only
      rw [ihl cid hc]
      have h1 : (s.trail.take i).countP (fun l => s.aboveLvl lvl l &&
          (s.reason.getD l.varOf none == some cid)) = 0 := by
        rw [List.countP_eq_zero]
        intro l hl
        obtain ⟨k, hk, hlk⟩ := List.mem_iff_getElem.mp hl
        have hk' : k < i := by
          have := hk
          simp only [List.length_take] at this
          omega
        have hkt : k < s.trail.length := by
          have := hk
          simp only [List.length_take] at this
          omega
        have heq : (s.trail.take i)[k] = s.trail[k] := List.getElem_take _
        rw [heq] at hlk
        have := hmin k hk'
        rw [hlk] at this
        simp [this]
      have h2 : (s.trail.drop i).countP (fun l => s.aboveLvl lvl l &&
            (s.reason.getD l.varOf none == some cid)) =
          (s.trail.drop i).countP (fun l => s.reason.getD l.varOf none == some cid) := by
        apply List.countP_congr
        intro l hl
        obtain ⟨j, hj, hlj⟩ := List.mem_iff_getElem.mp hl
        have := hsuf j hj
        rw [hlj] at this
        simp [this]
      have htr : s.trail.countP (fun l => s.aboveLvl lvl l &&
            (s.reason.getD l.varOf none == some cid)) =
          (s.trail.drop i).countP (fun l => s.reason.getD l.varOf none == some cid) := by
        conv_lhs => rw [← List.take_append_drop i s.trail]
        rw [List.countP_append, h1, h2]
        omega
      rw [htr]
    · -- (d) low-level assignments survive with their bindings
      intro l hl hle
      obtain ⟨k, hk, hlk⟩ := List.mem_iff_getElem.mp hl
      have hnotP : s.aboveLvl lvl l = false := by
        simp only [aboveLvl, decide_eq_false_iff_not, not_lt]
        exact hle
      have hki : k < i := by
        by_contra hik
        push_neg at hik
        rcases Nat.eq_or_lt_of_le hik with rfl | hlt
        · rw [hlk] at hPi
          rw [hPi] at hnotP
          simp at hnotP
        · have hrel := List.pairwise_iff_getElem.mp hmono i k hi hk hlt
          rw [hlk] at hrel
          simp only [aboveLvl, decide_eq_true_eq] at hPi
          simp only [aboveLvl, decide_eq_false_iff_not, not_lt] at hnotP
          omega
      have hvnot : l.varOf ∉ (s.trail.drop i).map Lit.varOf := by
        intro hmem
        obtain ⟨l', hl', hveq⟩ := List.mem_map.mp hmem
        obtain ⟨j, hj, hlj⟩ := List.mem_iff_getElem.mp hl'
        have hlen : i + j < s.trail.length := by
          have := hj
          simp only [List.length_drop] at this
          omega
        have hlj' : s.trail[i + j] = l' := by
          rw [← List.getElem_drop]
          exact hlj
        have hk3 : k < (s.trail.map Lit.varOf).length := by simpa using hk
        have hlen3 : i + j < (s.trail.map Lit.varOf).length := by simpa using hlen
        -- positions k and i + j carry the same variable
        have hkj : (s.trail.map Lit.varOf)[k] =
            (s.trail.map Lit.varOf)[i + j] := by
          simp only [List.getElem_map]
          rw [hlk, hlj', hveq]
        have := (hnd.getElem_inj_iff).mp hkj
        omega
      constructor
      · rw [hs', hp.2.1]
        simp only
        have hkk : k < (s.trail.take i).length := by
          simp only [List.length_take]
          omega
        have hmem := List.getElem_mem hkk
        rw [List.getElem_take] at hmem
        rw [← hlk]
        exact hmem
      · rw [hs', hp.1]
        simp only
        rw [ihm l.varOf, if_neg hvnot]

/-! ## Top-level simplification (C7) -/

/-- `satClause` only reads the model, so it is stable under the state
changes made by the removal loop. -/
theorem satClause_model_only (s1 s2 : Solver) (h : s1.model = s2.model)
    (c : Clause) : s1.satClause c = s2.satClause c := by
  unfold satClause
  rw [h]

/-- Fields `rmSatBookkeep` leaves untouched, and its effect on the
watcher list. -/
theorem rmSatBookkeep_preserved (s : Solver) (cid : Nat) :
    (s.rmSatBookkeep cid).model = s.model ∧
      (s.rmSatBookkeep cid).store = s.store ∧
      (s.rmSatBookkeep cid).pbClauses = s.pbClauses ∧
      (s.rmSatBookkeep cid).learnedDB = s.learnedDB ∧
      (s.rmSatBookkeep cid).status = s.status ∧
      (s.rmSatBookkeep cid).locks = s.locks ∧
      (s.rmSatBookkeep cid).trail = s.trail ∧
      (s.rmSatBookkeep cid).queue = s.queue ∧
      (s.rmSatBookkeep cid).watched = s.watched.erase cid := by
  simp only [rmSatBookkeep, tryUnwatchClause]
  split <;> simp

/-- `satId` is stable under `rmSatBookkeep`. -/
theorem satId_bookkeep (s : Solver) (cid cid' : Nat) :
    (s.rmSatBookkeep cid).satId cid' = s.satId cid' := by
  unfold satId
  rw [(rmSatBookkeep_preserved s cid).2.1,
    satClause_model_only _ s (rmSatBookkeep_preserved s cid).1]

/-- The removal loop touches only the watcher list and the reasons. -/
theorem rmSatLoop_preserved (fuel : Nat) : ∀ (s : Solver) (arr : List Nat) (i e : Nat),
    (rmSatLoop fuel s arr i e).1.model = s.model ∧
      (rmSatLoop fuel s arr i e).1.store = s.store ∧
      (rmSatLoop fuel s arr i e).1.pbClauses = s.pbClauses ∧
      (rmSatLoop fuel s arr i e).1.learnedDB = s.learnedDB ∧
      (rmSatLoop fuel s arr i e).1.status = s.status ∧
      (rmSatLoop fuel s arr i e).1.locks = s.locks ∧
      List.Sublist (rmSatLoop fuel s arr i e).1.watched s.watched := by
  induction fuel with
  | zero => intro s arr i e; simp [rmSatLoop]
  | succ fuel ih =>
    intro s arr i e
    rw [rmSatLoop]
    by_cases hlt : i < e
    · simp only [if_pos hlt]
      by_cases hsat : s.satId (arr.getD i 0) = true
      · simp only [hsat, if_pos]
        have hp := rmSatBookkeep_preserved s (arr.getD i 0)
        obtain ⟨m, st, pb, ld, stt, lk, w⟩ :=
          ih (s.rmSatBookkeep (arr.getD i 0)) (arr.set i (arr.getD (e - 1) 0)) i (e - 1)
        exact ⟨m.trans hp.1, st.trans hp.2.1, pb.trans hp.2.2.1, ld.trans hp.2.2.2.1,
          stt.trans hp.2.2.2.2.1, lk.trans hp.2.2.2.2.2.1,
          (hp.2.2.2.2.2.2.2.2 ▸ w).trans (List.erase_sublist _ _)⟩
      · simp only [hsat, if_neg, Bool.false_eq_true]
        exact ih s arr (i + 1) e
    · simp only [if_neg hlt]
      exact ⟨by trivial, by trivial, by trivial, by trivial, by trivial, by trivial,
        List.Sublist.refl _⟩

/-- `satId` is stable under the whole removal loop. -/
theorem satId_rmSatLoop (fuel : Nat) (s : Solver) (arr : List Nat) (i e : Nat)
    (cid : Nat) : (rmSatLoop fuel s arr i e).1.satId cid = s.satId cid := by
  unfold satId
  rw [(rmSatLoop_preserved fuel s arr i e).2.1,
    satClause_model_only _ s (rmSatLoop_preserved fuel s arr i e).1]

/-- The removal loop returns, up to order, the kept prefix `[0, i)`
followed by the non-satisfied entries of the live region `[i, e)`. -/
theorem rmSatLoop_perm (fuel : Nat) : ∀ (s : Solver) (arr : List Nat) (i e : Nat),
    i ≤ e → e ≤ arr.length → e - i ≤ fuel →
    List.Perm (rmSatLoop fuel s arr i e).2
      (arr.take i ++ ((arr.take e).drop i).filter (fun cid => !(s.satId cid))) := by
  induction fuel with
  | zero =>
    intro s arr i e hie hea hf
    have : i = e := by omega
    subst this
    rw [rmSatLoop]
    have hd : (arr.take i).drop i = [] := by
      apply List.drop_eq_nil_of_le
      simp [List.length_take]
    simp [hd]
  | succ fuel ih =>
    intro s arr i e hie hea hf
    rw [rmSatLoop]
    by_cases hlt : i < e
    · simp only [if_pos hlt]
      have hilen : i < arr.length := by omega
      have hgi : arr.getD i 0 = arr[i] := List.getD_eq_getElem _ _ hilen
      have hslice : (arr.take e).drop i
          = arr[i] :: (arr.take e).drop (i + 1) := by
        have hitk : i < (arr.take e).length := by
          simp [List.length_take]; omega
        rw [List.drop_eq_getElem_cons hitk]
        congr 1
        exact List.getElem_take _
      by_cases hsat : s.satId (arr.getD i 0) = true
      · simp only [hsat, if_pos]
        set b := arr.getD (e - 1) 0 with hb
        set s' := s.rmSatBookkeep (arr.getD i 0) with hs'
        have hsat' : ∀ cid, s'.satId cid = s.satId cid :=
          fun cid => satId_bookkeep s (arr.getD i 0) cid
        have h1 := ih s' (arr.set i b) i (e - 1)
          (by omega) (by simp; omega) (by omega)
        have htk : (arr.set i b).take i = arr.take i := by
          rw [List.set_take, List.set_eq_of_length_le]
          simp [List.length_take]
        have hfc : ((arr.set i b).take (e - 1)).drop i =
            ((arr.set i b).drop i).take (e - 1 - i) := by
          rw [List.drop_take]
        rw [htk] at h1
        have hfilter_eq : ∀ L : List Nat,
            L.filter (fun cid => !(s'.satId cid)) = L.filter (fun cid => !(s.satId cid)) := by
          intro L
          apply List.filter_congr
          intro x _
          rw [hsat' x]
        rw [hfilter_eq] at h1
        refine h1.trans (List.Perm.append_left _ ?_)
        -- the two slices are permutations: the swapped-in last element moves
        -- to the front of the live region
        have hdropset : (arr.set i b).drop i = b :: arr.drop (i + 1) := by
          rw [List.drop_set, if_neg (Nat.lt_irrefl i), Nat.sub_self,
            List.drop_eq_getElem_cons hilen, List.set_cons_zero]
        rw [hfc, hdropset, hslice]
        -- target slice: arr[i] :: take (e-i-1) (drop (i+1) arr), with arr[i] satisfied
        have htarget : (arr.take e).drop (i + 1) = (arr.drop (i + 1)).take (e - (i + 1)) := by
          rw [List.drop_take]
        rw [htarget]
        have hsatb : (!(s.satId (arr[i]))) = false := by
          rw [← hgi, hsat]
          rfl
        rw [List.filter_cons, hsatb]
        simp only [Bool.false_eq_true, if_neg]
        rcases Nat.eq_or_lt_of_le (by omega : i + 1 ≤ e) with heq | hlt2
        · -- i = e - 1 : both slices are empty
          have h1z : e - 1 - i = 0 := by omega
          have h2z : e - (i + 1) = 0 := by omega
          rw [h1z, h2z]
          simp
        · -- i < e - 1 : the last element of the target slice is b
          obtain ⟨k, hk⟩ : ∃ k, e - 1 - i = k + 1 := ⟨e - 1 - i - 1, by omega⟩
          have hidx : e - (i + 1) = k + 1 := by omega
          rw [hidx, hk, List.take_succ_cons]
          have hlast : (arr.drop (i + 1)).take (k + 1) =
              (arr.drop (i + 1)).take k ++ [b] := by
            rw [List.take_succ]
            congr 1
            have hb2 : (arr.drop (i + 1))[k]? = some b := by
              rw [List.getElem?_drop]
              have h3 : i + 1 + k = e - 1 := by omega
              rw [h3, List.getElem?_eq_getElem (by omega : e - 1 < arr.length)]
              rw [hb, List.getD_eq_getElem _ _ (by omega : e - 1 < arr.length)]
            rw [hb2]
            rfl
          rw [hlast]
          exact List.Perm.filter _ ((List.perm_append_singleton _ _).symm)
      · simp only [hsat, if_neg, Bool.false_eq_true]
        have h1 := ih s arr (i + 1) e (by omega) hea (by omega)
        refine h1.trans ?_
        have htk1 : arr.take (i + 1) = arr.take i ++ [arr[i]] := by
          rw [List.take_succ, List.getElem?_eq_getElem hilen]
          rfl
        rw [htk1, hslice, List.filter_cons]
        have hsf : s.satId (arr.getD i 0) = false := by
          cases h' : s.satId (arr.getD i 0)
          · rfl
          · exact absurd h' hsat
        have hnb : (!(s.satId (arr[i]))) = true := by
          rw [← hgi, hsf]
          rfl
        rw [hnb]
        simp only [if_pos]
        rw [List.append_assoc]
        rfl
    · simp only [if_neg hlt]
      have : i = e := by omega
      subst this
      have hd : (arr.take i).drop i = [] := by
        apply List.drop_eq_nil_of_le
        simp [List.length_take]
      simp [hd]

/-- Every satisfied entry of the live region is removed from the watcher
list by the loop (the watcher list holds each constraint at most once). -/
theorem rmSatLoop_unwatch (fuel : Nat) : ∀ (s : Solver) (arr : List Nat) (i e : Nat),
    i ≤ e → e ≤ arr.length → e - i ≤ fuel → s.watched.Nodup →
    ∀ cid, s.satId cid = true → cid ∈ (arr.take e).drop i →
      cid ∉ (rmSatLoop fuel s arr i e).1.watched := by
  induction fuel with
  | zero =>
    intro s arr i e hie hea hf hw cid hsat hmem
    have : i = e := by omega
    subst this
    rw [List.drop_eq_nil_of_le (by simp [List.length_take])] at hmem
    cases hmem
  | succ fuel ih =>
    intro s arr i e hie hea hf hw cid hsat hmem
    rw [rmSatLoop]
    by_cases hlt : i < e
    · simp only [if_pos hlt]
      have hilen : i < arr.length := by omega
      have hgi : arr.getD i 0 = arr[i] := List.getD_eq_getElem _ _ hilen
      have hslice : (arr.take e).drop i
          = arr[i] :: (arr.take e).drop (i + 1) := by
        have hitk : i < (arr.take e).length := by
          simp [List.length_take]; omega
        rw [List.drop_eq_getElem_cons hitk]
        congr 1
        exact List.getElem_take _
      rw [hslice] at hmem
      by_cases hsi : s.satId (arr.getD i 0) = true
      · simp only [hsi, if_pos]
        set cid0 := arr.getD i 0 with hcid0
        set b := arr.getD (e - 1) 0 with hb
        set s' := s.rmSatBookkeep cid0 with hs'
        have hw' : s'.watched.Nodup := by
          rw [(rmSatBookkeep_preserved s cid0).2.2.2.2.2.2.2.2]
          exact hw.erase _
        have hsub := (rmSatLoop_preserved fuel s' (arr.set i b) i (e - 1)).2.2.2.2.2.2
        rcases List.mem_cons.mp hmem with rfl | hmem2
        · -- cid is the removed head: it was erased from the watcher list
          intro hin
          have hin' := hsub.subset hin
          rw [(rmSatBookkeep_preserved s cid0).2.2.2.2.2.2.2.2] at hin'
          rw [← hgi] at hin'
          exact ((hw.mem_erase_iff).mp hin').1 rfl
        · -- cid sits further in the live region
          rcases Nat.eq_or_lt_of_le (by omega : i + 1 ≤ e) with heq | hlt2
          · rw [List.drop_eq_nil_of_le (by simp [List.length_take]; omega)] at hmem2
            cases hmem2
          · have htarget : (arr.take e).drop (i + 1) =
                (arr.drop (i + 1)).take (e - (i + 1)) := by
              rw [List.drop_take]
            obtain ⟨k, hk⟩ : ∃ k, e - 1 - i = k + 1 := ⟨e - 1 - i - 1, by omega⟩
            have hidx : e - (i + 1) = k + 1 := by omega
            have hlast : (arr.drop (i + 1)).take (k + 1) =
                (arr.drop (i + 1)).take k ++ [b] := by
              rw [List.take_succ]
              congr 1
              have hb2 : (arr.drop (i + 1))[k]? = some b := by
                rw [List.getElem?_drop]
                have h3 : i + 1 + k = e - 1 := by omega
                rw [h3, List.getElem?_eq_getElem (by omega : e - 1 < arr.length)]
                rw [hb, List.getD_eq_getElem _ _ (by omega : e - 1 < arr.length)]
              rw [hb2]
              rfl
            rw [htarget, hidx, hlast] at hmem2
            -- membership in the shrunk live region of the swapped array
            have hmem' : cid ∈ ((arr.set i b).take (e - 1)).drop i := by
              have hfc : ((arr.set i b).take (e - 1)).drop i =
                  ((arr.set i b).drop i).take (e - 1 - i) := by
                rw [List.drop_take]
              have hdropset : (arr.set i b).drop i = b :: arr.drop (i + 1) := by
                rw [List.drop_set, if_neg (Nat.lt_irrefl i), Nat.sub_self,
                  List.drop_eq_getElem_cons hilen, List.set_cons_zero]
              rw [hfc, hdropset, hk, List.take_succ_cons]
              rcases List.mem_append.mp hmem2 with h1 | h2
              · exact List.mem_cons_of_mem _ h1
              · rcases List.mem_singleton.mp h2 with rfl
                exact List.mem_cons_self _ _
            have hsat' : s'.satId cid = true := by
              rw [satId_bookkeep]
              exact hsat
            exact ih s' (arr.set i b) i (e - 1) (by omega) (by simp; omega) (by omega)
              hw' cid hsat' hmem'
      · simp only [hsi, if_neg, Bool.false_eq_true]
        rcases List.mem_cons.mp hmem with rfl | hmem2
        · rw [← hgi] at hsat
          exact absurd hsat hsi
        · exact ih s arr (i + 1) e (by omega) hea (by omega) hw cid hsat hmem2
    · simp only [if_neg hlt]
      have : i = e := by omega
      subst this
      rw [List.drop_eq_nil_of_le (by simp [List.length_take])] at hmem
      cases hmem

/-- `satId` only depends on the model and the store. -/
theorem satId_congr (s1 s2 : Solver) (hm : s1.model = s2.model)
    (hs : s1.store = s2.store) (cid : Nat) : s1.satId cid = s2.satId cid := by
  unfold satId
  rw [hs, satClause_model_only _ _ hm]

/-- C7 (amended): the top-level simplification routine, when applied,
removes from the problem database and from the learned database exactly the
constraints whose stored clause is reported satisfied by `satClause`, and
detaches them from the watcher lists; and `satClause` reports exactly the
plain non-binary cardinality-1 clauses containing a literal assigned true
at level 1 — binary clauses are skipped in addition to cardinality and
pseudo-Boolean constraints.  (In this version of the code the routine is
moreover never invoked: the call after unit learning, solver.go:385, is
commented out.) -/
theorem rmSat_top_level_simplification (s : Solver) (hw : s.watched.Nodup) :
    (∀ cid, cid ∈ (s.rmSatClauses).pbClauses ↔
        cid ∈ s.pbClauses ∧ s.satId cid = false) ∧
    (∀ cid, cid ∈ (s.rmSatClauses).learnedDB ↔
        cid ∈ s.learnedDB ∧ s.satId cid = false) ∧
    (∀ cid, s.satId cid = true → cid ∈ s.pbClauses ∨ cid ∈ s.learnedDB →
        cid ∉ (s.rmSatClauses).watched) ∧
    (∀ c : Clause, (c.lenC = 2 ∨ c.cardinality ≠ 1 ∨ c.pseudoBoolean = true) →
        s.satClause c = false) ∧
    (∀ c : Clause, s.satClause c = true ↔
        (c.lenC ≠ 2 ∧ c.cardinality = 1 ∧ c.pseudoBoolean = false ∧
          ∃ l ∈ c.lits, (s.model.getD l.varOf 0 = 1 ∧ l.isPositive = true) ∨
            (s.model.getD l.varOf 0 = -1 ∧ l.isPositive = false))) := by
  have hchar : ∀ c : Clause, s.satClause c = true ↔
      (c.lenC ≠ 2 ∧ c.cardinality = 1 ∧ c.pseudoBoolean = false ∧
        ∃ l ∈ c.lits, (s.model.getD l.varOf 0 = 1 ∧ l.isPositive = true) ∨
          (s.model.getD l.varOf 0 = -1 ∧ l.isPositive = false)) := by
    intro c
    unfold satClause
    by_cases hskip : c.lenC = 2 ∨ c.cardinality ≠ 1 ∨ c.pseudoBoolean = true
    · rw [if_pos ?_]
      · simp only [Bool.false_eq_true, false_iff]
        intro ⟨h1, h2, h3, _⟩
        rcases hskip with h | h | h
        · exact h1 h
        · exact h h2
        · rw [h3] at h
          cases h
      · rcases hskip with h | h | h
        · exact Or.inl h
        · exact Or.inr (Or.inl h)
        · exact Or.inr (Or.inr (by simp [h]))
    · push_neg at hskip
      obtain ⟨h1, h2, h3⟩ := hskip
      rw [if_neg ?_]
      · rw [List.any_eq_true]
        constructor
        · rintro ⟨l, hl, hcond⟩
          refine ⟨h1, h2, by simpa using h3, l, hl, ?_⟩
          simp only [Bool.or_eq_true, Bool.and_eq_true, decide_eq_true_eq,
            Bool.not_eq_true'] at hcond
          rcases hcond with ⟨ha, hb⟩ | ⟨ha, hb⟩
          · exact Or.inl ⟨by exact_mod_cast ha, hb⟩
          · exact Or.inr ⟨by exact_mod_cast ha, hb⟩
        · rintro ⟨_, _, _, l, hl, hcond⟩
          refine ⟨l, hl, ?_⟩
          simp only [Bool.or_eq_true, Bool.and_eq_true, decide_eq_true_eq,
            Bool.not_eq_true']
          rcases hcond with ⟨ha, hb⟩ | ⟨ha, hb⟩
          · exact Or.inl ⟨by exact_mod_cast ha, hb⟩
          · exact Or.inr ⟨by exact_mod_cast ha, hb⟩
      · push_neg
        exact ⟨h1, h2, by simpa using h3⟩
  -- structure of rmSatClauses
  have hr1p := rmSatLoop_preserved s.pbClauses.length s s.pbClauses 0 s.pbClauses.length
  have hr1m := rmSatLoop_perm s.pbClauses.length s s.pbClauses 0 s.pbClauses.length
    (by omega) (by omega) (by omega)
  set r1 := rmSatLoop s.pbClauses.length s s.pbClauses 0 s.pbClauses.length with hr1
  set s1 : Solver := { r1.1 with pbClauses := r1.2 } with hs1
  have hs1m : s1.model = s.model := hr1p.1
  have hs1st : s1.store = s.store := hr1p.2.1
  have hs1ld : s1.learnedDB = s.learnedDB := hr1p.2.2.2.1
  have hs1w : s1.watched = r1.1.watched := rfl
  have hsat1 : ∀ cid, s1.satId cid = s.satId cid := fun cid =>
    satId_congr s1 s hs1m hs1st cid
  have hr2p := rmSatLoop_preserved s1.learnedDB.length s1 s1.learnedDB 0
    s1.learnedDB.length
  have hr2m := rmSatLoop_perm s1.learnedDB.length s1 s1.learnedDB 0
    s1.learnedDB.length (by omega) (by omega) (by omega)
  set r2 := rmSatLoop s1.learnedDB.length s1 s1.learnedDB 0 s1.learnedDB.length
    with hr2
  have hfin : s.rmSatClauses = { r2.1 with learnedDB := r2.2 } := rfl
  have hpbfin : (s.rmSatClauses).pbClauses = r1.2 := by
    rw [hfin]
    show r2.1.pbClauses = r1.2
    rw [hr2p.2.2.1]
  have hldfin : (s.rmSatClauses).learnedDB = r2.2 := by
    rw [hfin]
  have hwfin : (s.rmSatClauses).watched = r2.1.watched := by
    rw [hfin]
  refine ⟨?_, ?_, ?_, fun c h => ?_, hchar⟩
  · intro cid
    rw [hpbfin]
    rw [hr1m.mem_iff]
    simp only [List.take_zero, List.drop_zero, List.nil_append,
      List.take_length, List.mem_filter, Bool.not_eq_true']
  · intro cid
    rw [hldfin]
    rw [hr2m.mem_iff]
    simp only [List.take_zero, List.drop_zero, List.nil_append,
      List.take_length, List.mem_filter, Bool.not_eq_true']
    rw [hs1ld]
    constructor
    · rintro ⟨h1, h2⟩
      rw [hsat1 cid] at h2
      exact ⟨h1, h2⟩
    · rintro ⟨h1, h2⟩
      rw [← hsat1 cid] at h2
      exact ⟨h1, h2⟩
  · intro cid hsat hdb
    rw [hwfin]
    have hw2sub := hr2p.2.2.2.2.2.2
    rcases hdb with hpb | hld
    · -- removed and unwatched by the first loop, never re-added
      have h1 := rmSatLoop_unwatch s.pbClauses.length s s.pbClauses 0
        s.pbClauses.length (by omega) (by omega) (by omega) hw cid hsat
        (by simpa using hpb)
      intro hin
      exact h1 (hs1w ▸ hw2sub.subset hin)
    · -- removed and unwatched by the second loop
      have hw1 : s1.watched.Nodup := by
        rw [hs1w]
        exact hr1p.2.2.2.2.2.2.nodup hw
      have h2 := rmSatLoop_unwatch s1.learnedDB.length s1 s1.learnedDB 0
        s1.learnedDB.length (by omega) (by omega) (by omega) hw1 cid
        (by rw [hsat1]; exact hsat)
        (by simp only [List.take_length, List.drop_zero]; rw [hs1ld]; exact hld)
      exact h2
  · cases hc : s.satClause c
    · rfl
    · exfalso
      obtain ⟨h1, h2, h3, _⟩ := (hchar c).mp hc
      rcases h with hh | hh | hh
      · exact h1 hh
      · exact hh h2
      · rw [h3] at hh
        cases hh

end Solver

/-- A state holding a single binary clause `x1 ∨ x2`, with `x1` assigned
true at level 1: the clause is satisfied at the top level and is a plain
clause of cardinality 1. -/
def sampleBinary : Solver :=
  { sampleA with model := [1, 0], trail := [0],
                 store := [NewClause [0, 2]], locks := [0],
                 pbClauses := [0], watched := [0] }

/-- C7 counterexample: the claim says exactly the constraints that are not
plain cardinality-1 clauses are skipped, so the satisfied plain binary
clause `x1 ∨ x2` of `sampleBinary` should be removed; but `satClause`
(solver.go:301) also skips clauses of length 2, so `rmSatClauses` keeps it
in the problem database and in the watcher list. -/
theorem rmsat_keeps_satisfied_binary_counterexample :
    (sampleBinary.rmSatClauses).pbClauses = [0] ∧
      (sampleBinary.rmSatClauses).watched = [0] ∧
      sampleBinary.satClause (sampleBinary.store.getD 0 (NewClause [])) = false ∧
      (sampleBinary.store.getD 0 (NewClause [])).cardinality = 1 ∧
      (sampleBinary.store.getD 0 (NewClause [])).pseudoBoolean = false ∧
      (0 : Lit) ∈ (sampleBinary.store.getD 0 (NewClause [])).lits ∧
      sampleBinary.model.getD (Lit.varOf 0) 0 = 1 ∧ Lit.isPositive 0 = true := by
  decide

/-- A state with three stored plain clauses: the unit `x1` (satisfied at
level 1), the binary `x1 ∨ x2` (satisfied but skipped) and the unit `¬x2`
(not satisfied). -/
def sampleRm : Solver :=
  { sampleA with model := [1, 0], trail := [0],
                 store := [NewClause [0], NewClause [0, 2], NewClause [3]],
                 locks := [0, 0, 0], pbClauses := [0, 1, 2],
                 watched := [0, 1, 2] }

/-- Witness for C7's amended theorem at `sampleRm`: the satisfied unit
clause 0 is removed and unwatched, the satisfied binary clause 1 and the
unsatisfied clause 2 stay. -/
theorem rmsat_top_level_simplification_witness :
    sampleRm.watched.Nodup ∧
      0 ∉ (sampleRm.rmSatClauses).pbClauses ∧
      1 ∈ (sampleRm.rmSatClauses).pbClauses ∧
      2 ∈ (sampleRm.rmSatClauses).pbClauses ∧
      0 ∉ (sampleRm.rmSatClauses).watched := by
  have hnd : sampleRm.watched.Nodup := by decide
  have h := Solver.rmSat_top_level_simplification sampleRm hnd
  refine ⟨hnd, ?_, ?_, ?_, ?_⟩
  · intro hm
    have := (h.1 0).mp hm
    revert this
    decide
  · exact (h.1 1).mpr (by decide)
  · exact (h.1 2).mpr (by decide)
  · exact h.2.2.1 0 (by decide) (Or.inl (by decide))

/-! ## Pair-list lemmas for the AppendClause filter (C3) -/

theorem zip_set {α β} : ∀ (xs : List α) (ys : List β) (i : Nat) (a : α) (b : β),
    xs.length = ys.length →
    (xs.set i a).zip (ys.set i b) = (xs.zip ys).set i (a, b) := by
  intro xs
  induction xs with
  | nil =>
    intro ys i a b h
    rw [List.length_nil] at h
    rw [(List.length_eq_zero.mp h.symm)]
    rfl
  | cons x xs ih =>
    intro ys i a b h
    rcases ys with _ | ⟨y, ys⟩
    · simp at h
    · rcases i with _ | i
      · rfl
      · simp only [List.set_cons_succ, List.zip_cons_cons]
        rw [ih ys i a b (by simpa using h)]

theorem set_replicate_self {α} : ∀ (n i : Nat) (a : α),
    (List.replicate n a).set i a = List.replicate n a
  | 0, _, _ => by simp
  | n + 1, 0, a => by simp [List.replicate_succ]
  | n + 1, i + 1, a => by
    rw [List.replicate_succ, List.set_cons_succ, set_replicate_self n i a,
      ← List.replicate_succ]

theorem dropLast_replicate {α} (n : Nat) (a : α) :
    (List.replicate n a).dropLast = List.replicate (n - 1) a := by
  rw [List.dropLast_eq_take, List.length_replicate, List.take_replicate]
  congr 1
  omega

theorem zip_dropLast {α β} (xs : List α) (ys : List β) (h : xs.length = ys.length) :
    xs.dropLast.zip ys.dropLast = (xs.zip ys).dropLast := by
  have hlz : (xs.zip ys).length = xs.length := by
    rw [List.length_zip, h, Nat.min_self]
  rw [List.dropLast_eq_take, List.dropLast_eq_take, List.dropLast_eq_take, hlz, ← h]
  exact (List.take_zipWith).symm

namespace Solver

/-- Sum of the weights of the pairs whose literal has the given status. -/
def sumSt (s : Solver) (st : Status) (ps : List (Lit × Int)) : Int :=
  (ps.map (fun p => if s.litStatus p.1 = st then p.2 else 0)).sum

theorem sumSt_nil (s : Solver) (st : Status) : s.sumSt st [] = 0 := rfl

theorem sumSt_cons (s : Solver) (st : Status) (p : Lit × Int) (ps : List (Lit × Int)) :
    s.sumSt st (p :: ps) = (if s.litStatus p.1 = st then p.2 else 0) + s.sumSt st ps := by
  simp [sumSt]

theorem sumSt_perm (s : Solver) (st : Status) {ps qs : List (Lit × Int)}
    (h : List.Perm ps qs) : s.sumSt st ps = s.sumSt st qs :=
  (h.map _).sum_eq

end Solver

namespace Clause

theorem pairs_eq (c : Clause) : c.pairs = c.lits.zip c.weightsList := rfl

theorem weight_none (c : Clause) (h : c.weights = none) (i : Nat) :
    c.weight i = 1 := by
  unfold weight
  rw [h]

theorem weight_some (c : Clause) (ws : List Int) (h : c.weights = some ws) (i : Nat) :
    c.weight i = ws.getD i 1 := by
  unfold weight
  rw [h]

theorem weightsList_none (c : Clause) (h : c.weights = none) :
    c.weightsList = List.replicate c.lits.length 1 := by
  unfold weightsList
  rw [h]

theorem weightsList_some (c : Clause) (ws : List Int) (h : c.weights = some ws) :
    c.weightsList = ws := by
  unfold weightsList
  rw [h]

/-- The weight view has the same length as the literal list. -/
theorem weightsList_length (c : Clause)
    (hw : ∀ ws, c.weights = some ws → ws.length = c.lits.length) :
    c.weightsList.length = c.lits.length := by
  rcases hwc : c.weights with _ | ws
  · rw [weightsList_none c hwc, List.length_replicate]
  · rw [weightsList_some c ws hwc]
    exact hw ws hwc

theorem pairs_length (c : Clause)
    (hw : ∀ ws, c.weights = some ws → ws.length = c.lits.length) :
    c.pairs.length = c.lits.length := by
  rw [pairs_eq, List.length_zip, weightsList_length c hw, Nat.min_self]

theorem pairs_fst (c : Clause)
    (hw : ∀ ws, c.weights = some ws → ws.length = c.lits.length) :
    c.pairs.map Prod.fst = c.lits := by
  rw [pairs_eq, List.map_fst_zip]
  rw [weightsList_length c hw]

theorem pairs_getD (c : Clause)
    (hw : ∀ ws, c.weights = some ws → ws.length = c.lits.length)
    (i : Nat) (hi : i < c.lits.length) :
    c.pairs.getD i (0, 1) = (c.get i, c.weight i) := by
  have hpl : i < c.pairs.length := by
    rw [pairs_length c hw]
    exact hi
  have hll : i < c.weightsList.length := by
    rw [weightsList_length c hw]
    exact hi
  rw [List.getD_eq_getElem _ _ hpl]
  have hze : c.pairs[i] = (c.lits[i], c.weightsList[i]) :=
    List.getElem_zip
  rw [hze]
  congr 1
  · unfold get
    rw [List.getD_eq_getElem _ _ hi]
  · rcases hwc : c.weights with _ | ws
    · rw [weight_none c hwc]
      rw [← List.getD_eq_getElem c.weightsList 1 hll, weightsList_none c hwc]
      rw [List.getD_eq_getElem _ _ (by simpa using hi), List.getElem_replicate]
    · rw [weight_some c ws hwc]
      rw [← List.getD_eq_getElem c.weightsList 1 hll, weightsList_some c ws hwc]

/-- `removeLit` acts on the pair view as swap-with-last removal. -/
theorem removeLit_pairs (c : Clause)
    (hw : ∀ ws, c.weights = some ws → ws.length = c.lits.length)
    (i : Nat) :
    (c.removeLit i).pairs =
      (c.pairs.set i (c.pairs.getD (c.lits.length - 1) (0, 1))).dropLast := by
  rcases hlen : c.lits.length with _ | n
  · -- empty clause: everything is empty
    have hnil : c.lits = [] := List.length_eq_zero.mp hlen
    rcases hwc : c.weights with _ | ws
    · simp [removeLit, pairs, weightsList, hwc, hnil]
    · have hws : ws = [] := by
        have := hw ws hwc
        rw [hlen] at this
        exact List.length_eq_zero.mp this
      simp [removeLit, pairs, weightsList, hwc, hnil, hws]
  · have hgetP : c.pairs.getD (c.lits.length - 1) (0, 1) =
        (c.get (c.lits.length - 1), c.weight (c.lits.length - 1)) :=
      pairs_getD c hw _ (by omega)
    have hg : c.get (c.lits.length - 1) = c.lits.getD (c.lits.length - 1) 0 := rfl
    have hidx : n + 1 - 1 = c.lits.length - 1 := by rw [hlen]
    rw [hidx]
    rcases hwc : c.weights with _ | ws
    · -- no stored weights: the weight view is all ones
      have hLl : (c.removeLit i).lits
          = (c.lits.set i (c.lits.getD (c.lits.length - 1) 0)).dropLast := rfl
      have hLw : (c.removeLit i).weights = none := by
        show (c.weights.map _) = none
        rw [hwc]
        rfl
      have hLlen : (c.removeLit i).lits.length = n := by
        rw [hLl, List.length_dropLast, List.length_set, hlen]
        omega
      have hrepl : (List.replicate (n + 1) (1 : Int)).dropLast = List.replicate n 1 := by
        rw [dropLast_replicate]
        congr 1
      calc (c.removeLit i).pairs
          = ((c.lits.set i (c.lits.getD (c.lits.length - 1) 0)).dropLast).zip
              (List.replicate n 1) := by
            rw [pairs_eq, weightsList_none _ hLw, hLlen, hLl]
        _ = (((c.lits.set i (c.lits.getD (c.lits.length - 1) 0)).zip
              (List.replicate (n + 1) 1)).dropLast) := by
            rw [← hrepl, zip_dropLast _ _ (by rw [List.length_set, hlen, List.length_replicate])]
        _ = ((c.lits.zip (List.replicate (n + 1) 1)).set i
              (c.lits.getD (c.lits.length - 1) 0, 1)).dropLast := by
            conv_lhs => rw [← set_replicate_self (n + 1) i (1 : Int)]
            rw [zip_set _ _ _ _ _ (by rw [hlen, List.length_replicate])]
        _ = (c.pairs.set i (c.pairs.getD (c.lits.length - 1) (0, 1))).dropLast := by
            rw [hgetP, hg, weight_none c hwc, pairs_eq, weightsList_none c hwc, hlen]
    · -- stored weights
      have hlw : ws.length = c.lits.length := hw ws hwc
      have hLl : (c.removeLit i).lits
          = (c.lits.set i (c.lits.getD (c.lits.length - 1) 0)).dropLast := rfl
      have hLw : (c.removeLit i).weights
          = some ((ws.set i (ws.getD (ws.length - 1) 1)).dropLast) := by
        show (c.weights.map _) = _
        rw [hwc]
        rfl
      calc (c.removeLit i).pairs
          = ((c.lits.set i (c.lits.getD (c.lits.length - 1) 0)).dropLast).zip
              ((ws.set i (ws.getD (ws.length - 1) 1)).dropLast) := by
            rw [pairs_eq, weightsList_some _ _ hLw, hLl]
        _ = (((c.lits.set i (c.lits.getD (c.lits.length - 1) 0)).zip
              (ws.set i (ws.getD (ws.length - 1) 1))).dropLast) := by
            rw [zip_dropLast _ _ (by rw [List.length_set, List.length_set, hlw])]
        _ = ((c.lits.zip ws).set i
              (c.lits.getD (c.lits.length - 1) 0, ws.getD (ws.length - 1) 1)).dropLast := by
            rw [zip_set _ _ _ _ _ hlw.symm]
        _ = (c.pairs.set i (c.pairs.getD (c.lits.length - 1) (0, 1))).dropLast := by
            rw [hgetP, hg, weight_some c ws hwc, pairs_eq, weightsList_some c ws hwc, hlw]

end Clause

/-- A two-variable state with `x1` true at level 1 and `x2` true at level 2,
the latter propagated by the stored (locked) clause 0. -/
def sampleCleanup : Solver :=
  { sampleA with model := [1, 2], trail := [0, 2], reason := [none, some 0],
                 store := [NewClause [2]], locks := [1], pbClauses := [0],
                 watched := [0], queue := [] }

/-- Witness for C5 at `sampleCleanup`, undoing to level 1: variable 1
(bound at level 2) is unbound, its reason cleared, its clause unlocked and
the variable is back in the heap, while the level-1 literal survives. -/
theorem cleanup_backtrack_coherence_witness :
    (sampleCleanup.cleanupBindings 1).model.getD 1 0 = 0 ∧
      (sampleCleanup.cleanupBindings 1).reason.getD 1 none = none ∧
      1 ∈ (sampleCleanup.cleanupBindings 1).queue ∧
      (0 : Lit) ∈ (sampleCleanup.cleanupBindings 1).trail ∧
      (sampleCleanup.cleanupBindings 1).locks.getD 0 0 = 0 := by
  have hcons : ∀ v : GVar, (1 : Int) < ((sampleCleanup.model.getD v 0).natAbs : Int) →
      v ∈ sampleCleanup.trail.map Lit.varOf := by
    intro v hv
    match v with
    | 0 => exact absurd hv (by decide)
    | 1 => decide
    | (n + 2) =>
      rw [List.getD_eq_default] at hv
      · simp at hv
      · simp [sampleCleanup, sampleA]
  have h := Solver.cleanup_backtrack_coherence sampleCleanup 1 (by decide)
    hcons (by decide) (by decide)
  refine ⟨(h.2.1 1 (by decide)).1, (h.2.1 1 (by decide)).2.1,
    (h.2.1 1 (by decide)).2.2, (h.2.2.2 0 (by decide) (by decide)).1,
    (h.2.2.1 0 (by decide)).trans (by decide)⟩

/-! ## Swap-with-last removal on plain lists -/

theorem dropLast_append_getD {α} (d : α) (l : List α) (h : 0 < l.length) :
    l.dropLast ++ [l.getD (l.length - 1) d] = l := by
  have hne : l ≠ [] := List.length_pos.mp h
  rw [List.getD_eq_getElem _ _ (by omega), ← List.getLast_eq_getElem l hne]
  exact List.dropLast_append_getLast hne

theorem dropLast_set_take {α} (l : List α) (v : α) (i : Nat) (h : i < l.length) :
    ((l.set i v).dropLast).take i = l.take i := by
  rw [List.dropLast_eq_take, List.length_set, List.take_take,
      Nat.min_eq_left (by omega), List.set_take]
  exact List.set_eq_of_length_le (by rw [List.length_take]; omega)

theorem dropLast_set_drop {α} (l : List α) (v : α) (i : Nat) (h : i < l.length) :
    ((l.set i v).dropLast).drop i = ((l.drop i).set 0 v).dropLast := by
  rw [List.dropLast_eq_take, List.length_set]
  have hsplit : l.length - 1 = i + (l.length - 1 - i) := by omega
  rw [hsplit, ← List.take_drop, List.drop_set, if_neg (by omega), Nat.sub_self]
  rw [List.dropLast_eq_take, List.length_set, List.length_drop]
  congr 1
  omega

/-- A nonempty list is a permutation of its head consed onto the
swap-with-last removal of its slot 0. -/
theorem swapRemove_head_perm {α} (d : α) : ∀ (A : List α), 0 < A.length →
    List.Perm A (A.getD 0 d :: ((A.set 0 (A.getD (A.length - 1) d)).dropLast))
  | [], h => absurd h (by simp)
  | [a], _ => by simp
  | a :: b :: t, _ => by
    have hB : 0 < (b :: t).length := by simp
    have hidx : (a :: b :: t).length - 1 = ((b :: t).length - 1) + 1 := by
      simp only [List.length_cons]
      omega
    have hw : (a :: b :: t).getD ((a :: b :: t).length - 1) d
        = (b :: t).getD ((b :: t).length - 1) d := by
      rw [hidx, List.getD_cons_succ]
    rw [hw, List.getD_cons_zero, List.set_cons_zero]
    have hdl : ((b :: t).getD ((b :: t).length - 1) d :: b :: t).dropLast
        = (b :: t).getD ((b :: t).length - 1) d :: (b :: t).dropLast := rfl
    rw [hdl]
    refine List.Perm.cons a ?_
    have hperm := List.perm_append_singleton
      ((b :: t).getD ((b :: t).length - 1) d) ((b :: t).dropLast)
    rw [dropLast_append_getD d (b :: t) hB] at hperm
    exact hperm

/-- The suffix from `i` on is a permutation of the element in slot `i`
consed onto the same suffix of the swap-with-last removal of slot `i`. -/
theorem swapRemove_drop_perm {α} (d : α) (l : List α) (i : Nat)
    (h : i < l.length) :
    List.Perm (l.drop i)
      (l.getD i d :: (((l.set i (l.getD (l.length - 1) d)).dropLast).drop i)) := by
  rw [dropLast_set_drop l _ i h]
  have h0 : 0 < (l.drop i).length := by
    rw [List.length_drop]
    omega
  have hg0 : (l.drop i).getD 0 d = l.getD i d := by
    rw [List.getD_eq_getElem?_getD, List.getD_eq_getElem?_getD, List.getElem?_drop,
        Nat.add_zero]
  have hgl : (l.drop i).getD ((l.drop i).length - 1) d = l.getD (l.length - 1) d := by
    rw [List.getD_eq_getElem?_getD, List.getD_eq_getElem?_getD, List.getElem?_drop,
        List.length_drop]
    congr 2
    omega
  have hmain := swapRemove_head_perm d (l.drop i) h0
  rw [hg0, hgl] at hmain
  exact hmain

namespace Clause

theorem updateCardinality_pairs (c : Clause) (w : Int) :
    (c.updateCardinality w).pairs = c.pairs := rfl

theorem updateCardinality_cardinality (c : Clause) (w : Int) :
    (c.updateCardinality w).cardinality = c.cardinality + w := rfl

theorem updateCardinality_learned (c : Clause) (w : Int) :
    (c.updateCardinality w).learned = c.learned := rfl

theorem updateCardinality_lits (c : Clause) (w : Int) :
    (c.updateCardinality w).lits = c.lits := rfl

theorem updateCardinality_weights (c : Clause) (w : Int) :
    (c.updateCardinality w).weights = c.weights := rfl

theorem removeLit_cardinality (c : Clause) (i : Nat) :
    (c.removeLit i).cardinality = c.cardinality := rfl

theorem removeLit_learned (c : Clause) (i : Nat) :
    (c.removeLit i).learned = c.learned := rfl

theorem removeLit_length (c : Clause) (i : Nat) :
    (c.removeLit i).lits.length = c.lits.length - 1 := by
  simp [removeLit]

/-- `removeLit` keeps the stored weight list in step with the literals. -/
theorem removeLit_hw (c : Clause)
    (hw : ∀ ws, c.weights = some ws → ws.length = c.lits.length) (i : Nat) :
    ∀ ws, (c.removeLit i).weights = some ws →
      ws.length = (c.removeLit i).lits.length := by
  intro ws h
  rcases hwc : c.weights with _ | ws0
  · rw [removeLit, hwc] at h
    simp at h
  · rw [removeLit, hwc] at h
    have h2 : (ws0.set i (ws0.getD (ws0.length - 1) 1)).dropLast = ws := by
      simpa using h
    rw [← h2, removeLit_length]
    simp [hw ws0 hwc]

end Clause

/-- The suffix of the pair view from a valid slot starts with that slot's
literal and weight. -/
theorem Clause.pairs_drop_cons (c : Clause)
    (hw : ∀ ws, c.weights = some ws → ws.length = c.lits.length)
    (i : Nat) (hi : i < c.lits.length) :
    c.pairs.drop i = (c.get i, c.weight i) :: c.pairs.drop (i + 1) := by
  have hplen : c.pairs.length = c.lits.length := Clause.pairs_length c hw
  have hpi : i < c.pairs.length := by omega
  rw [List.drop_eq_getElem_cons hpi]
  congr 1
  rw [← List.getD_eq_getElem c.pairs (0, 1) hpi]
  exact Clause.pairs_getD c hw i hi

/-- Swap-with-last removal of slot `i` viewed on the pair suffix from `i`:
a permutation that singles out the removed pair. -/
theorem Clause.removeLit_drop_perm (c : Clause)
    (hw : ∀ ws, c.weights = some ws → ws.length = c.lits.length)
    (i : Nat) (hi : i < c.lits.length) :
    List.Perm (c.pairs.drop i)
      ((c.get i, c.weight i) :: ((c.removeLit i).pairs.drop i)) := by
  have hplen : c.pairs.length = c.lits.length := Clause.pairs_length c hw
  have hpi : i < c.pairs.length := by omega
  have hperm := swapRemove_drop_perm (0, 1) c.pairs i hpi
  rw [Clause.pairs_getD c hw i hi] at hperm
  rw [Clause.removeLit_pairs c hw i, ← hplen]
  exact hperm

/-- The prefix before the removed slot is untouched by `removeLit`. -/
theorem Clause.removeLit_take (c : Clause)
    (hw : ∀ ws, c.weights = some ws → ws.length = c.lits.length)
    (i : Nat) (hi : i < c.lits.length) :
    (c.removeLit i).pairs.take i = c.pairs.take i := by
  have hplen : c.pairs.length = c.lits.length := Clause.pairs_length c hw
  rw [Clause.removeLit_pairs c hw i]
  exact dropLast_set_take c.pairs _ i (by omega)

namespace Solver

theorem acFilter_zero_eq (s : Solver) (c : Clause) (i : Nat) (minW maxW : Int) :
    s.acFilter 0 c i minW maxW = (c, minW, maxW) := rfl

theorem acFilter_stop_eq (s : Solver) (fuel : Nat) (c : Clause) (i : Nat)
    (minW maxW : Int) (hi : ¬ i < c.lits.length) :
    s.acFilter (fuel + 1) c i minW maxW = (c, minW, maxW) := by
  simp only [acFilter, if_neg hi]

theorem acFilter_sat_step (s : Solver) (fuel : Nat) (c : Clause) (i : Nat)
    (minW maxW : Int) (hi : i < c.lits.length)
    (hst : s.litStatus (c.get i) = Status.Sat) :
    s.acFilter (fuel + 1) c i minW maxW
      = s.acFilter fuel ((c.removeLit i).updateCardinality (-(c.weight i))) i
          (minW + c.weight i) (maxW + c.weight i) := by
  simp only [acFilter, if_pos hi, hst]

theorem acFilter_unsat_step (s : Solver) (fuel : Nat) (c : Clause) (i : Nat)
    (minW maxW : Int) (hi : i < c.lits.length)
    (hst : s.litStatus (c.get i) = Status.Unsat) :
    s.acFilter (fuel + 1) c i minW maxW
      = s.acFilter fuel (c.removeLit i) i minW maxW := by
  simp only [acFilter, if_pos hi, hst]

theorem acFilter_indet_step (s : Solver) (fuel : Nat) (c : Clause) (i : Nat)
    (minW maxW : Int) (hi : i < c.lits.length)
    (hst : s.litStatus (c.get i) = Status.Indet) :
    s.acFilter (fuel + 1) c i minW maxW
      = s.acFilter fuel c (i + 1) minW (maxW + c.weight i) := by
  simp only [acFilter, if_pos hi, hst]

/-- Both loop exits of the filter (exhausted fuel, index past the end):
the conjunction holds of the unchanged accumulators. -/
theorem acFilterBase (s : Solver) (c : Clause) (i : Nat) (minW maxW : Int)
    (hle : c.lits.length ≤ i)
    (hw : ∀ ws, c.weights = some ws → ws.length = c.lits.length) :
    List.Perm c.pairs
        (c.pairs.take i ++ (c.pairs.drop i).filter
          (fun p => decide (s.litStatus p.1 = Status.Indet))) ∧
      minW = minW + s.sumSt Status.Sat (c.pairs.drop i) ∧
      maxW = maxW + s.sumSt Status.Sat (c.pairs.drop i)
           + s.sumSt Status.Indet (c.pairs.drop i) ∧
      c.cardinality = c.cardinality - s.sumSt Status.Sat (c.pairs.drop i) := by
  have hplen : c.pairs.length = c.lits.length := Clause.pairs_length c hw
  have hdrop : c.pairs.drop i = [] := List.drop_eq_nil_of_le (by omega)
  have htake : c.pairs.take i = c.pairs := List.take_of_length_le (by omega)
  rw [hdrop, htake]
  exact ⟨by simp, by simp [sumSt_nil], by simp [sumSt_nil], by simp [sumSt_nil]⟩

/-- Characterization of the `AppendClause` literal filter (solver.go:665-681)
when run with enough fuel: the reduced constraint keeps, as a multiset, the
already-processed prefix together with the still-unbound literals of the
rest; `minW` accumulates the weights of the level-1-satisfied literals,
`maxW` those of the satisfied and unbound ones, and the cardinality drops by
the satisfied weights; the learned flag and the weight-length invariant are
preserved. -/
theorem acFilter_spec (s : Solver) (fuel : Nat) :
    ∀ (c : Clause) (i : Nat) (minW maxW : Int),
      fuel = c.lits.length - i →
      (∀ ws, c.weights = some ws → ws.length = c.lits.length) →
      List.Perm (s.acFilter fuel c i minW maxW).1.pairs
          (c.pairs.take i ++ (c.pairs.drop i).filter
            (fun p => decide (s.litStatus p.1 = Status.Indet))) ∧
        (s.acFilter fuel c i minW maxW).2.1
          = minW + s.sumSt Status.Sat (c.pairs.drop i) ∧
        (s.acFilter fuel c i minW maxW).2.2
          = maxW + s.sumSt Status.Sat (c.pairs.drop i)
              + s.sumSt Status.Indet (c.pairs.drop i) ∧
        (s.acFilter fuel c i minW maxW).1.cardinality
          = c.cardinality - s.sumSt Status.Sat (c.pairs.drop i) ∧
        (s.acFilter fuel c i minW maxW).1.learned = c.learned ∧
        (∀ ws, (s.acFilter fuel c i minW maxW).1.weights = some ws →
          ws.length = (s.acFilter fuel c i minW maxW).1.lits.length) := by
  induction fuel with
  | zero =>
    intro c i minW maxW hfuel hw
    obtain ⟨hP, h1, h2, h3⟩ := s.acFilterBase c i minW maxW (by omega) hw
    rw [acFilter_zero_eq]
    exact ⟨hP, h1, h2, h3, rfl, hw⟩
  | succ fuel ih =>
    intro c i minW maxW hfuel hw
    by_cases hi : i < c.lits.length
    · have hplen : c.pairs.length = c.lits.length := Clause.pairs_length c hw
      have hpi : i < c.pairs.length := by omega
      have hcons := Clause.pairs_drop_cons c hw i hi
      rcases hst : s.litStatus (c.get i) with _ | _ | _
      · -- unbound literal: kept, weight counted into maxW
        rw [acFilter_indet_step s fuel c i minW maxW hi hst]
        obtain ⟨hP, h1, h2, h3, h4, h5⟩ :=
          ih c (i + 1) minW (maxW + c.weight i) (by omega) hw
        have htake : c.pairs.take (i + 1)
            = c.pairs.take i ++ [(c.get i, c.weight i)] := by
          rw [List.take_succ, List.getElem?_eq_getElem hpi,
              ← List.getD_eq_getElem c.pairs (0, 1) hpi,
              Clause.pairs_getD c hw i hi]
          rfl
        have hfil : (c.pairs.drop i).filter
              (fun p => decide (s.litStatus p.1 = Status.Indet))
            = (c.get i, c.weight i) :: (c.pairs.drop (i + 1)).filter
              (fun p => decide (s.litStatus p.1 = Status.Indet)) := by
          rw [hcons, List.filter_cons, if_pos (by simp [hst])]
        have hsS : s.sumSt Status.Sat (c.pairs.drop i)
            = s.sumSt Status.Sat (c.pairs.drop (i + 1)) := by
          rw [hcons, sumSt_cons]
          simp [hst]
        have hsI : s.sumSt Status.Indet (c.pairs.drop i)
            = c.weight i + s.sumSt Status.Indet (c.pairs.drop (i + 1)) := by
          rw [hcons, sumSt_cons]
          simp [hst]
        refine ⟨?_, by omega, by omega, by omega, h4, h5⟩
        rw [hfil]
        rw [htake, List.append_assoc] at hP
        exact hP
      · -- satisfied literal: removed, cardinality and both weights updated
        rw [acFilter_sat_step s fuel c i minW maxW hi hst]
        have hw2 : ∀ ws,
            ((c.removeLit i).updateCardinality (-(c.weight i))).weights = some ws →
              ws.length
                = ((c.removeLit i).updateCardinality (-(c.weight i))).lits.length :=
          fun ws h => Clause.removeLit_hw c hw i ws h
        have hlen2 : ((c.removeLit i).updateCardinality (-(c.weight i))).lits.length
            = c.lits.length - 1 := Clause.removeLit_length c i
        obtain ⟨hP, h1, h2, h3, h4, h5⟩ :=
          ih ((c.removeLit i).updateCardinality (-(c.weight i))) i
            (minW + c.weight i) (maxW + c.weight i) (by rw [hlen2]; omega) hw2
        have hdp : List.Perm (c.pairs.drop i)
            ((c.get i, c.weight i)
              :: (((c.removeLit i).updateCardinality (-(c.weight i))).pairs.drop i)) :=
          Clause.removeLit_drop_perm c hw i hi
        have hsS : s.sumSt Status.Sat (c.pairs.drop i)
            = c.weight i + s.sumSt Status.Sat
                (((c.removeLit i).updateCardinality (-(c.weight i))).pairs.drop i) := by
          rw [sumSt_perm s Status.Sat hdp, sumSt_cons]
          simp [hst]
        have hsI : s.sumSt Status.Indet (c.pairs.drop i)
            = s.sumSt Status.Indet
                (((c.removeLit i).updateCardinality (-(c.weight i))).pairs.drop i) := by
          rw [sumSt_perm s Status.Indet hdp, sumSt_cons]
          simp [hst]
        have hfil : List.Perm
            ((c.pairs.drop i).filter
              (fun p => decide (s.litStatus p.1 = Status.Indet)))
            ((((c.removeLit i).updateCardinality (-(c.weight i))).pairs.drop i).filter
              (fun p => decide (s.litStatus p.1 = Status.Indet))) := by
          have hpf := List.Perm.filter
            (fun p => decide (s.litStatus p.1 = Status.Indet)) hdp
          rw [List.filter_cons, if_neg (by simp [hst])] at hpf
          exact hpf
        have htk : ((c.removeLit i).updateCardinality (-(c.weight i))).pairs.take i
            = c.pairs.take i := Clause.removeLit_take c hw i hi
        have hc2c : ((c.removeLit i).updateCardinality (-(c.weight i))).cardinality
            = c.cardinality - c.weight i := by
          rw [Clause.updateCardinality_cardinality, Clause.removeLit_cardinality]
          ring
        refine ⟨?_, by omega, by omega, by omega, h4, h5⟩
        rw [htk] at hP
        exact hP.trans (List.Perm.append_left _ hfil).symm
      · -- falsified literal: dropped with no weight contribution
        rw [acFilter_unsat_step s fuel c i minW maxW hi hst]
        have hw2 : ∀ ws, (c.removeLit i).weights = some ws →
            ws.length = (c.removeLit i).lits.length :=
          fun ws h => Clause.removeLit_hw c hw i ws h
        have hlen2 : (c.removeLit i).lits.length = c.lits.length - 1 :=
          Clause.removeLit_length c i
        obtain ⟨hP, h1, h2, h3, h4, h5⟩ :=
          ih (c.removeLit i) i minW maxW (by rw [hlen2]; omega) hw2
        have hdp : List.Perm (c.pairs.drop i)
            ((c.get i, c.weight i) :: ((c.removeLit i).pairs.drop i)) :=
          Clause.removeLit_drop_perm c hw i hi
        have hsS : s.sumSt Status.Sat (c.pairs.drop i)
            = s.sumSt Status.Sat ((c.removeLit i).pairs.drop i) := by
          rw [sumSt_perm s Status.Sat hdp, sumSt_cons]
          simp [hst]
        have hsI : s.sumSt Status.Indet (c.pairs.drop i)
            = s.sumSt Status.Indet ((c.removeLit i).pairs.drop i) := by
          rw [sumSt_perm s Status.Indet hdp, sumSt_cons]
          simp [hst]
        have hfil : List.Perm
            ((c.pairs.drop i).filter
              (fun p => decide (s.litStatus p.1 = Status.Indet)))
            (((c.removeLit i).pairs.drop i).filter
              (fun p => decide (s.litStatus p.1 = Status.Indet))) := by
          have hpf := List.Perm.filter
            (fun p => decide (s.litStatus p.1 = Status.Indet)) hdp
          rw [List.filter_cons, if_neg (by simp [hst])] at hpf
          exact hpf
        have htk : (c.removeLit i).pairs.take i = c.pairs.take i :=
          Clause.removeLit_take c hw i hi
        have hc2c : (c.removeLit i).cardinality = c.cardinality :=
          Clause.removeLit_cardinality c i
        refine ⟨?_, by omega, by omega, by omega, h4, h5⟩
        rw [htk] at hP
        exact hP.trans (List.Perm.append_left _ hfil).symm
    · obtain ⟨hP, h1, h2, h3⟩ := s.acFilterBase c i minW maxW (by omega) hw
      rw [acFilter_stop_eq s fuel c i minW maxW hi]
      exact ⟨hP, h1, h2, h3, rfl, hw⟩

/-- The unbinding fold of `cleanupBindings` never touches the constraint
databases or the status. -/
theorem unbind_foldl_db (L : List Lit) : ∀ (t : Solver),
    (L.foldl Solver.unbindLit t).store = t.store ∧
      (L.foldl Solver.unbindLit t).pbClauses = t.pbClauses ∧
      (L.foldl Solver.unbindLit t).learnedDB = t.learnedDB ∧
      (L.foldl Solver.unbindLit t).watched = t.watched ∧
      (L.foldl Solver.unbindLit t).status = t.status := by
  induction L with
  | nil => exact fun t => ⟨rfl, rfl, rfl, rfl, rfl⟩
  | cons l L ihL =>
    intro t
    have h := unbindLit_preserved t l
    have h2 := ihL (t.unbindLit l)
    simp only [List.foldl_cons]
    exact ⟨h2.1.trans h.2.2.1, h2.2.1.trans h.2.2.2.1,
      h2.2.2.1.trans h.2.2.2.2.1, h2.2.2.2.1.trans h.2.2.2.2.2.1,
      h2.2.2.2.2.trans h.2.1⟩

/-- `cleanupBindings` never touches the constraint databases or the
status. -/
theorem cleanup_db (s : Solver) (lvl : Int) :
    (s.cleanupBindings lvl).store = s.store ∧
      (s.cleanupBindings lvl).pbClauses = s.pbClauses ∧
      (s.cleanupBindings lvl).learnedDB = s.learnedDB ∧
      (s.cleanupBindings lvl).watched = s.watched ∧
      (s.cleanupBindings lvl).status = s.status := by
  rcases hidx : s.trail.findIdx? (s.aboveLvl lvl) with _ | i
  · simp only [cleanupBindings, hidx]
    have hro := resetOptim_preserved s
    exact ⟨hro.2.2.2.2.2.2.1, hro.2.2.2.2.2.2.2.1, hro.2.2.2.2.2.2.2.2.1,
      hro.2.2.2.2.2.2.2.2.2.1, hro.2.2.2.2.2.1⟩
  · simp only [cleanupBindings, hidx]
    obtain ⟨hs, hp, hl, hwt, hst⟩ := unbind_foldl_db (s.trail.drop i) s
    have hro := resetOptim_preserved
      { (s.trail.drop i).foldl Solver.unbindLit s with trail := s.trail.take i }
    exact ⟨hro.2.2.2.2.2.2.1.trans hs, hro.2.2.2.2.2.2.2.1.trans hp,
      hro.2.2.2.2.2.2.2.2.1.trans hl, hro.2.2.2.2.2.2.2.2.2.1.trans hwt,
      hro.2.2.2.2.2.1.trans hst⟩

/-- C3: `AppendClause` (solver.go:660-694) first undoes to level 1 — an
operation that leaves every constraint database and the status untouched —
then filters the constraint against the level-1 bindings: the reduced
constraint keeps exactly the still-unbound literals (as a multiset), each
satisfied literal's weight lowers the required cardinality, and `minW` /
`maxW` are the satisfied resp. satisfied-plus-unbound weight sums.  The
four-way dispatch then compares them with the original cardinality:
already-satisfied (reduced cardinality ≤ 0) returns the cleaned solver
unchanged, an unattainable reduced cardinality sets Unsat, an exactly
attainable one propagates the remaining literals as units at level 1, and
otherwise the reduced constraint is attached and watched. -/
theorem appendClause_filter_dispatch (s : Solver) (clause : Clause)
    (s1 : Solver) (c' : Clause) (minW maxW : Int)
    (hw : ∀ ws, clause.weights = some ws → ws.length = clause.lits.length)
    (hs1 : s1 = s.cleanupBindings 1)
    (hr : s1.acFilter clause.lits.length clause 0 0 0 = (c', minW, maxW)) :
    (s1.store = s.store ∧ s1.pbClauses = s.pbClauses ∧
      s1.learnedDB = s.learnedDB ∧ s1.watched = s.watched ∧
      s1.status = s.status) ∧
    List.Perm c'.pairs (clause.pairs.filter
        (fun p => decide (s1.litStatus p.1 = Status.Indet))) ∧
    minW = s1.sumSt Status.Sat clause.pairs ∧
    maxW = s1.sumSt Status.Sat clause.pairs
         + s1.sumSt Status.Indet clause.pairs ∧
    c'.cardinality = clause.cardinality - minW ∧
    c'.learned = clause.learned ∧
    ((clause.cardinality ≤ minW) ↔ c'.cardinality ≤ 0) ∧
    ((maxW < clause.cardinality) ↔
      s1.sumSt Status.Indet clause.pairs < c'.cardinality) ∧
    ((maxW = clause.cardinality) ↔
      s1.sumSt Status.Indet clause.pairs = c'.cardinality) ∧
    (clause.cardinality ≤ minW → s.AppendClause clause = s1) ∧
    (¬ clause.cardinality ≤ minW → maxW < clause.cardinality →
      s.AppendClause clause = { s1 with status := Status.Unsat }) ∧
    (¬ clause.cardinality ≤ minW → ¬ maxW < clause.cardinality →
      maxW = clause.cardinality →
      s.AppendClause clause = s1.propagateUnits c'.lits) ∧
    (¬ clause.cardinality ≤ minW → ¬ maxW < clause.cardinality →
      maxW ≠ clause.cardinality →
      s.AppendClause clause = s1.appendClauseI c' ∧
      (s1.appendClauseI c').store = s1.store ++ [c'] ∧
      (s1.appendClauseI c').pbClauses = s1.pbClauses ++ [s1.store.length] ∧
      (s1.appendClauseI c').watched = s1.watched ++ [s1.store.length] ∧
      (s1.appendClauseI c').learnedDB = s1.learnedDB) := by
  subst hs1
  have hdb := cleanup_db s 1
  have hspec := acFilter_spec (s.cleanupBindings 1) clause.lits.length clause 0 0 0
    (Nat.sub_zero _).symm hw
  rw [hr] at hspec
  simp only [List.take_zero, List.drop_zero, List.nil_append] at hspec
  obtain ⟨hP, h1, h2, h3, h4, _⟩ := hspec
  have hAC : s.AppendClause clause
      = (if clause.cardinality ≤ minW then s.cleanupBindings 1
         else if maxW < clause.cardinality then
           { s.cleanupBindings 1 with status := Status.Unsat }
         else if maxW = clause.cardinality then
           (s.cleanupBindings 1).propagateUnits c'.lits
         else (s.cleanupBindings 1).appendClauseI c') := by
    simp only [AppendClause]
    rw [hr]
  refine ⟨hdb, hP, by omega, by omega, by omega, h4, by omega, by omega,
    by omega, ?_, ?_, ?_, ?_⟩
  · intro h
    rw [hAC, if_pos h]
  · intro h h'
    rw [hAC, if_neg h, if_pos h']
  · intro h h' h''
    rw [hAC, if_neg h, if_neg h', if_pos h'']
  · intro h h' h''
    rw [hAC, if_neg h, if_neg h', if_neg h'']
    exact ⟨rfl, rfl, rfl, rfl, rfl⟩

/-- The unbinding fold also keeps the optimization bookkeeping. -/
theorem unbind_foldl_frame (L : List Lit) : ∀ (t : Solver),
    (L.foldl Solver.unbindLit t).minLits = t.minLits ∧
      (L.foldl Solver.unbindLit t).minWeights = t.minWeights ∧
      (L.foldl Solver.unbindLit t).asumptions = t.asumptions ∧
      (L.foldl Solver.unbindLit t).lastModel = t.lastModel ∧
      (L.foldl Solver.unbindLit t).nbVars = t.nbVars := by
  induction L with
  | nil => exact fun t => ⟨rfl, rfl, rfl, rfl, rfl⟩
  | cons l L ihL =>
    intro t
    obtain ⟨-, -, -, -, -, -, h7, h8, h9, h10, h11, -⟩ := unbindLit_preserved t l
    obtain ⟨g1, g2, g3, g4, g5⟩ := ihL (t.unbindLit l)
    simp only [List.foldl_cons]
    exact ⟨g1.trans h7, g2.trans h8, g3.trans h9, g4.trans h10, g5.trans h11⟩

/-- `cleanupBindings` keeps the optimization bookkeeping. -/
theorem cleanup_frame (s : Solver) (lvl : Int) :
    (s.cleanupBindings lvl).minLits = s.minLits ∧
      (s.cleanupBindings lvl).minWeights = s.minWeights ∧
      (s.cleanupBindings lvl).asumptions = s.asumptions ∧
      (s.cleanupBindings lvl).lastModel = s.lastModel ∧
      (s.cleanupBindings lvl).nbVars = s.nbVars := by
  rcases hidx : s.trail.findIdx? (s.aboveLvl lvl) with _ | i
  · simp only [cleanupBindings, hidx]
    obtain ⟨-, -, -, -, -, -, -, -, -, -, r11, r12, r13, r14, r15⟩ :=
      resetOptim_preserved s
    exact ⟨r13, r14, r15, r11, r12⟩
  · simp only [cleanupBindings, hidx]
    obtain ⟨g1, g2, g3, g4, g5⟩ := unbind_foldl_frame (s.trail.drop i) s
    obtain ⟨-, -, -, -, -, -, -, -, -, -, r11, r12, r13, r14, r15⟩ :=
      resetOptim_preserved
        { (s.trail.drop i).foldl Solver.unbindLit s with trail := s.trail.take i }
    exact ⟨r13.trans g1, r14.trans g2, r15.trans g3, r11.trans g4, r12.trans g5⟩

/-- `propagateUnits` touches neither the constraint databases nor the
optimization bookkeeping nor the status. -/
theorem propagateUnits_frame (units : List Lit) : ∀ (s : Solver),
    (s.propagateUnits units).store = s.store ∧
      (s.propagateUnits units).pbClauses = s.pbClauses ∧
      (s.propagateUnits units).learnedDB = s.learnedDB ∧
      (s.propagateUnits units).watched = s.watched ∧
      (s.propagateUnits units).status = s.status ∧
      (s.propagateUnits units).minLits = s.minLits ∧
      (s.propagateUnits units).minWeights = s.minWeights ∧
      (s.propagateUnits units).asumptions = s.asumptions ∧
      (s.propagateUnits units).lastModel = s.lastModel ∧
      (s.propagateUnits units).nbVars = s.nbVars := by
  induction units with
  | nil => exact fun s => ⟨rfl, rfl, rfl, rfl, rfl, rfl, rfl, rfl, rfl, rfl⟩
  | cons u units ihu =>
    intro s
    obtain ⟨d1, d2, d3, d4, d5⟩ := cleanup_db s 1
    obtain ⟨f1, f2, f3, f4, f5⟩ := cleanup_frame s 1
    have hbody := ihu
      ((({ s.cleanupBindings 1 with
            model := (s.cleanupBindings 1).model.set u.varOf
              (lvlToSignedLvl u 1) }).unifyLiteralTop u).rebuildOrderHeap)
    obtain ⟨g1, g2, g3, g4, g5, g6, g7, g8, g9, g10⟩ := hbody
    refine ⟨g1.trans d1, g2.trans d2, g3.trans d3, g4.trans d4, g5.trans d5,
      g6.trans f1, g7.trans f2, g8.trans f3, g9.trans f4, g10.trans f5⟩

/-- `AppendClause` keeps the learned-clause database and the optimization
bookkeeping: the new constraint is never added as a learned clause. -/
theorem appendClause_frame (s : Solver) (c : Clause) :
    (s.AppendClause c).learnedDB = s.learnedDB ∧
      (s.AppendClause c).minLits = s.minLits ∧
      (s.AppendClause c).minWeights = s.minWeights ∧
      (s.AppendClause c).asumptions = s.asumptions ∧
      (s.AppendClause c).lastModel = s.lastModel ∧
      (s.AppendClause c).nbVars = s.nbVars := by
  obtain ⟨-, -, d3, -, -⟩ := cleanup_db s 1
  obtain ⟨f1, f2, f3, f4, f5⟩ := cleanup_frame s 1
  simp only [AppendClause]
  split
  · exact ⟨d3, f1, f2, f3, f4, f5⟩
  · split
    · exact ⟨d3, f1, f2, f3, f4, f5⟩
    · split
      · obtain ⟨-, -, p3, -, -, p6, p7, p8, p9, p10⟩ :=
          propagateUnits_frame
            ((s.cleanupBindings 1).acFilter c.lits.length c 0 0 0).1.lits
            (s.cleanupBindings 1)
        exact ⟨p3.trans d3, p6.trans f1, p7.trans f2, p8.trans f3,
          p9.trans f4, p10.trans f5⟩
      · exact ⟨d3, f1, f2, f3, f4, f5⟩

/-- `searchS` only touches status, model, trail and reason. -/
theorem searchS_frame (s : Solver) (script : Script) :
    (s.searchS script).1.store = s.store ∧
      (s.searchS script).1.pbClauses = s.pbClauses ∧
      (s.searchS script).1.learnedDB = s.learnedDB ∧
      (s.searchS script).1.watched = s.watched ∧
      (s.searchS script).1.minLits = s.minLits ∧
      (s.searchS script).1.minWeights = s.minWeights ∧
      (s.searchS script).1.asumptions = s.asumptions ∧
      (s.searchS script).1.lastModel = s.lastModel ∧
      (s.searchS script).1.nbVars = s.nbVars := by
  rcases script with _ | ⟨_ | r, rest⟩ <;>
    exact ⟨rfl, rfl, rfl, rfl, rfl, rfl, rfl, rfl, rfl⟩

/-- `SolveS` only touches status, model, trail, reason and `lastModel`. -/
theorem SolveS_frame (s : Solver) (script : Script) :
    (s.SolveS script).2.1.store = s.store ∧
      (s.SolveS script).2.1.pbClauses = s.pbClauses ∧
      (s.SolveS script).2.1.learnedDB = s.learnedDB ∧
      (s.SolveS script).2.1.watched = s.watched ∧
      (s.SolveS script).2.1.minLits = s.minLits ∧
      (s.SolveS script).2.1.minWeights = s.minWeights ∧
      (s.SolveS script).2.1.asumptions = s.asumptions ∧
      (s.SolveS script).2.1.nbVars = s.nbVars := by
  simp only [SolveS]
  split
  · exact ⟨rfl, rfl, rfl, rfl, rfl, rfl, rfl, rfl⟩
  · obtain ⟨g1, g2, g3, g4, g5, g6, g7, -, g9⟩ :=
      searchS_frame { s with status := Status.Indet } script
    split
    · exact ⟨g1, g2, g3, g4, g5, g6, g7, g9⟩
    · exact ⟨g1, g2, g3, g4, g5, g6, g7, g9⟩

/-- A non-Sat `SolveS` outcome does not touch the recorded model. -/
theorem SolveS_not_sat_lastModel (s : Solver) (script : Script)
    (h : ¬ (s.SolveS script).1 = Status.Sat) :
    (s.SolveS script).2.1.lastModel = s.lastModel := by
  by_cases hu : s.status = Status.Unsat
  · simp [SolveS, hu]
  · rcases script with _ | ⟨o, rest⟩
    · simp [SolveS, searchS, hu]
    · rcases o with _ | resp
      · simp [SolveS, searchS, hu]
      · exact absurd (by simp [SolveS, searchS, hu]) h

/-- `rebuildOrderHeap` only touches the order heap. -/
theorem rebuild_frame (s : Solver) :
    (s.rebuildOrderHeap).store = s.store ∧
      (s.rebuildOrderHeap).pbClauses = s.pbClauses ∧
      (s.rebuildOrderHeap).learnedDB = s.learnedDB ∧
      (s.rebuildOrderHeap).watched = s.watched ∧
      (s.rebuildOrderHeap).status = s.status ∧
      (s.rebuildOrderHeap).minLits = s.minLits ∧
      (s.rebuildOrderHeap).minWeights = s.minWeights ∧
      (s.rebuildOrderHeap).asumptions = s.asumptions ∧
      (s.rebuildOrderHeap).lastModel = s.lastModel ∧
      (s.rebuildOrderHeap).nbVars = s.nbVars ∧
      (s.rebuildOrderHeap).model = s.model :=
  ⟨rfl, rfl, rfl, rfl, rfl, rfl, rfl, rfl, rfl, rfl, rfl⟩

/-- Descending insertion keeps the multiset of pairs. -/
theorem insertDesc_perm (p : Lit × Int) : ∀ (l : List (Lit × Int)),
    List.Perm (insertDesc p l) (p :: l)
  | [] => List.Perm.refl _
  | q :: qs => by
    simp only [insertDesc]
    split
    · exact List.Perm.refl _
    · exact (List.Perm.cons q (insertDesc_perm p qs)).trans (List.Perm.swap p q qs)

/-- The weight-descending sort keeps the multiset of pairs (mirroring that
Go's `sort.Sort` permutes the `wLits` pairs, solver.go:854-865). -/
theorem sortPairs_perm : ∀ (l : List (Lit × Int)),
    List.Perm (sortPairs l) l
  | [] => List.Perm.refl _
  | p :: ps =>
    ((insertDesc_perm p (sortPairs ps)).trans
      (List.Perm.cons p (sortPairs_perm ps)))

/-- `computeCost` only reads the objective and the model. -/
theorem computeCost_congr (s1 s2 : Solver) (h1 : s1.minLits = s2.minLits)
    (h2 : s1.minWeights = s2.minWeights) (h3 : s1.model = s2.model) :
    s1.computeCost = s2.computeCost := by
  simp only [computeCost, objWeights, litTrue, h1, h2, h3]

/-- The body of one optimization iteration (tightening + heap rebuild +
re-solve, solver.go:781-788 / 844-849) preserves the learned-clause
database, the objective and the assumptions. -/
theorem iterBody_frame (s : Solver) (c : Clause) (script : Script) :
    ((((s.AppendClause c).rebuildOrderHeap).SolveS script).2.1).learnedDB
        = s.learnedDB ∧
      ((((s.AppendClause c).rebuildOrderHeap).SolveS script).2.1).asumptions
        = s.asumptions ∧
      ((((s.AppendClause c).rebuildOrderHeap).SolveS script).2.1).minLits
        = s.minLits ∧
      ((((s.AppendClause c).rebuildOrderHeap).SolveS script).2.1).minWeights
        = s.minWeights := by
  obtain ⟨a1, a2, a3, a4, -, -⟩ := appendClause_frame s c
  obtain ⟨-, -, s3, -, s5, s6, s7, -⟩ :=
    SolveS_frame ((s.AppendClause c).rebuildOrderHeap) script
  exact ⟨s3.trans a1, s7.trans a4, s5.trans a2, s6.trans a3⟩

/-- The optimization loop of `Minimize` (solver.go:823-850): every log
entry appends — unless the model had cost 0 — the tightening constraint
built from the assumptions with the sorted weights and threshold
`maxCost - cost + 1`, never marked learned; the learned-clause database,
the assumptions and the objective survive the loop; the returned cost is
the cost of the model recorded in `lastModel` on exit. -/
theorem minimizeLoop_spec (ws : List Int) (maxCost : Int) :
    ∀ (fuel : Nat) (s : Solver) (script : Script) (log : List IterStep)
      (r : Int × Solver × List IterStep),
      minimizeLoop ws maxCost fuel s script log = some r →
      (∀ e ∈ r.2.2, e ∈ log ∨
        ((e.appended = none ↔ e.cost = 0) ∧
          ∀ cl, e.appended = some cl →
            cl.lits = s.asumptions ∧ cl.weights = some ws ∧
            cl.cardinality = maxCost - e.cost + 1 ∧ cl.learned = false)) ∧
      r.2.1.learnedDB = s.learnedDB ∧
      r.2.1.asumptions = s.asumptions ∧
      r.2.1.minLits = s.minLits ∧
      r.2.1.minWeights = s.minWeights ∧
      (∃ m, r.2.1.lastModel = some m ∧
        r.1 = computeCost { r.2.1 with model := m }) := by
  intro fuel
  induction fuel with
  | zero =>
    intro s script log r h
    simp only [minimizeLoop] at h
    exact Option.noConfusion h
  | succ fuel ih =>
    intro s script log r h
    simp only [minimizeLoop] at h
    split at h
    · -- the model has cost 0: the loop stops
      rename_i hc
      obtain rfl := (Option.some.injEq _ _).mp h
      refine ⟨?_, rfl, rfl, rfl, rfl, s.model, rfl, ?_⟩
      · intro e he
        rw [List.mem_append, List.mem_singleton] at he
        rcases he with he | rfl
        · exact Or.inl he
        · exact Or.inr ⟨by simp, fun cl hcl => by simp at hcl⟩
      · rw [← hc]
    · rename_i hc
      split at h
      · -- the re-solve found another model: recurse
        rename_i hsat
        obtain ⟨hlog, hdb, hasum, hml, hmw, m, hlm, hcost⟩ :=
          ih _ _ _ _ h
        obtain ⟨f1, f2, f3, f4⟩ :=
          iterBody_frame { s with lastModel := some s.model } _ script
        refine ⟨?_, hdb.trans f1, hasum.trans f2, hml.trans f3,
          hmw.trans f4, m, hlm, hcost⟩
        intro e he
        rcases hlog e he with he' | hgood
        · rw [List.mem_append, List.mem_singleton] at he'
          rcases he' with he' | rfl
          · exact Or.inl he'
          · refine Or.inr ⟨by simp [hc], fun cl hcl => ?_⟩
            obtain rfl := (Option.some.injEq _ _).mp hcl
            exact ⟨rfl, rfl, rfl, rfl⟩
        · refine Or.inr ⟨hgood.1, fun cl hcl => ?_⟩
          obtain ⟨g1, g2, g3, g4⟩ := hgood.2 cl hcl
          exact ⟨g1.trans f2, g2, g3, g4⟩
      · -- the tightened problem is no longer satisfiable: stop
        rename_i hsat
        obtain rfl := (Option.some.injEq _ _).mp h
        obtain ⟨f1, f2, f3, f4⟩ :=
          iterBody_frame { s with lastModel := some s.model } _ script
        have hlm : ((({ s with lastModel := some s.model }.AppendClause
              (NewPBClause s.asumptions ws
                (maxCost - { s with lastModel := some s.model }.computeCost
                  + 1))).rebuildOrderHeap).SolveS script).2.1.lastModel
            = some s.model := by
          rw [SolveS_not_sat_lastModel _ _ hsat]
          obtain ⟨a1, a2, a3, a4, a5, -⟩ :=
            appendClause_frame { s with lastModel := some s.model }
              (NewPBClause s.asumptions ws
                (maxCost - { s with lastModel := some s.model }.computeCost + 1))
          exact a5
        refine ⟨?_, f1, f2, f3, f4, s.model, hlm, ?_⟩
        · intro e he
          rw [List.mem_append, List.mem_singleton] at he
          rcases he with he | rfl
          · exact Or.inl he
          · refine Or.inr ⟨by simp [hc], fun cl hcl => ?_⟩
            obtain rfl := (Option.some.injEq _ _).mp hcl
            exact ⟨rfl, rfl, rfl, rfl⟩
        · exact computeCost_congr _ _ f3.symm f4.symm rfl

end Solver

theorem getLastD_of_ne_nil {α} : ∀ (l : List α), l ≠ [] →
    ∀ (d1 d2 : α), l.getLastD d1 = l.getLastD d2
  | [], h => absurd rfl h
  | a :: t, _ => fun d1 d2 => by rw [List.getLastD_cons, List.getLastD_cons]

namespace Solver

/-- The loop of `Optimal` (solver.go:760-789): same per-iteration log
characterization as `minimizeLoop`, the emitted results extend the already
emitted ones, and the returned result is the last one emitted (so on an
Unsat re-solve the last saved model is returned as optimal). -/
theorem optimalLoop_spec (ws : List Int) (maxCost : Int) :
    ∀ (fuel : Nat) (s : Solver) (script : Script) (emitted : List Result)
      (log : List IterStep) (r : Result × List Result × Solver × List IterStep),
      optimalLoop ws maxCost fuel s script emitted log = some r →
      (∀ e ∈ r.2.2.2, e ∈ log ∨
        ((e.appended = none ↔ e.cost = 0) ∧
          ∀ cl, e.appended = some cl →
            cl.lits = s.asumptions ∧ cl.weights = some ws ∧
            cl.cardinality = maxCost - e.cost + 1 ∧ cl.learned = false)) ∧
      r.2.2.1.learnedDB = s.learnedDB ∧
      r.2.2.1.asumptions = s.asumptions ∧
      r.2.2.1.minLits = s.minLits ∧
      r.2.2.1.minWeights = s.minWeights ∧
      (∃ pre, r.2.1 = emitted ++ pre ∧ pre ≠ [] ∧
        pre.getLastD ⟨Status.Indet, [], 0⟩ = r.1) ∧
      r.1.status = Status.Sat ∧
      (∃ m, r.2.2.1.lastModel = some m ∧
        r.1.weight = computeCost { r.2.2.1 with model := m }) := by
  intro fuel
  induction fuel with
  | zero =>
    intro s script emitted log r h
    simp only [optimalLoop] at h
    exact Option.noConfusion h
  | succ fuel ih =>
    intro s script emitted log r h
    simp only [optimalLoop] at h
    split at h
    · -- the model has cost 0: the loop stops
      rename_i hc
      obtain rfl := (Option.some.injEq _ _).mp h
      refine ⟨?_, rfl, rfl, rfl, rfl,
        ⟨[⟨Status.Sat, ({ s with lastModel := some s.model }.modelMapFn).getD [],
            { s with lastModel := some s.model }.computeCost⟩], rfl, by simp,
          by simp⟩, rfl, s.model, rfl, ?_⟩
      · intro e he
        rw [List.mem_append, List.mem_singleton] at he
        rcases he with he | rfl
        · exact Or.inl he
        · exact Or.inr ⟨by simp, fun cl hcl => by simp at hcl⟩
      · rw [← hc]
    · rename_i hc
      split at h
      · -- the re-solve found another model: recurse
        rename_i hsat
        obtain ⟨hlog, hdb, hasum, hml, hmw, ⟨pre, hpre, hpne, hplast⟩,
          hrs, m, hlm, hcost⟩ := ih _ _ _ _ _ h
        obtain ⟨f1, f2, f3, f4⟩ :=
          iterBody_frame { s with lastModel := some s.model } _ script
        refine ⟨?_, hdb.trans f1, hasum.trans f2, hml.trans f3,
          hmw.trans f4,
          ⟨⟨Status.Sat, ({ s with lastModel := some s.model }.modelMapFn).getD [],
              { s with lastModel := some s.model }.computeCost⟩ :: pre,
            by rw [hpre, List.append_assoc]; rfl, by simp, ?_⟩,
          hrs, m, hlm, hcost⟩
        · intro e he
          rcases hlog e he with he' | hgood
          · rw [List.mem_append, List.mem_singleton] at he'
            rcases he' with he' | rfl
            · exact Or.inl he'
            · refine Or.inr ⟨by simp [hc], fun cl hcl => ?_⟩
              obtain rfl := (Option.some.injEq _ _).mp hcl
              exact ⟨rfl, rfl, rfl, rfl⟩
          · refine Or.inr ⟨hgood.1, fun cl hcl => ?_⟩
            obtain ⟨g1, g2, g3, g4⟩ := hgood.2 cl hcl
            exact ⟨g1.trans f2, g2, g3, g4⟩
        · rw [List.getLastD_cons]
          rw [getLastD_of_ne_nil pre hpne _ ⟨Status.Indet, [], 0⟩]
          exact hplast
      · -- the tightened problem is no longer satisfiable: stop
        rename_i hsat
        obtain rfl := (Option.some.injEq _ _).mp h
        obtain ⟨f1, f2, f3, f4⟩ :=
          iterBody_frame { s with lastModel := some s.model } _ script
        have hlm : ((({ s with lastModel := some s.model }.AppendClause
              (NewPBClause s.asumptions ws
                (maxCost - { s with lastModel := some s.model }.computeCost
                  + 1))).rebuildOrderHeap).SolveS script).2.1.lastModel
            = some s.model := by
          rw [SolveS_not_sat_lastModel _ _ hsat]
          obtain ⟨a1, a2, a3, a4, a5, -⟩ :=
            appendClause_frame { s with lastModel := some s.model }
              (NewPBClause s.asumptions ws
                (maxCost - { s with lastModel := some s.model }.computeCost + 1))
          exact a5
        refine ⟨?_, f1, f2, f3, f4,
          ⟨[⟨Status.Sat, ({ s with lastModel := some s.model }.modelMapFn).getD [],
              { s with lastModel := some s.model }.computeCost⟩], rfl, by simp,
            by simp⟩, rfl, s.model, hlm, ?_⟩
        · intro e he
          rw [List.mem_append, List.mem_singleton] at he
          rcases he with he | rfl
          · exact Or.inl he
          · refine Or.inr ⟨by simp [hc], fun cl hcl => ?_⟩
            obtain rfl := (Option.some.injEq _ _).mp hcl
            exact ⟨rfl, rfl, rfl, rfl⟩
        · exact computeCost_congr _ _ f3.symm f4.symm rfl

/-- C1: in the optimization loops of `Minimize` (solver.go:798-851) and
`Optimal` (solver.go:725-791), every iteration whose model has nonzero cost
hands `AppendClause` — the public append-clause operation — a pseudo-Boolean
constraint whose (literal, weight) pairs are exactly the negations of the
objective literals with their original weights (as a multiset; the loop
pre-sorts them by decreasing weight), with threshold `maxCost - cost + 1`
and the learned flag unset; the learned-clause database is never touched;
iterations with cost 0 append nothing; and `Optimal` returns the last
emitted result, i.e. the one built from the last saved model, when the
re-solve stops the loop. -/
theorem optimization_appends_tightening (s : Solver) (script : Script)
    (fuel : Nat) (ls : List Lit) (ws0 : List Int)
    (hls : s.minLits = some ls) (hws : s.minWeights = some ws0)
    (rm : Int × Solver × List IterStep)
    (hrm : MinimizeR fuel s script = some rm)
    (ro : Result × List Result × Solver × List IterStep)
    (hro : OptimalR fuel s script = some ro) :
    ((∀ e ∈ rm.2.2,
        (e.appended = none ↔ e.cost = 0) ∧
        ∀ cl, e.appended = some cl →
          List.Perm cl.pairs ((ls.map Lit.negation).zip ws0) ∧
          cl.cardinality = s.maxCostOf - e.cost + 1 ∧
          cl.learned = false) ∧
      rm.2.1.learnedDB = s.learnedDB) ∧
    ((∀ e ∈ ro.2.2.2,
        (e.appended = none ↔ e.cost = 0) ∧
        ∀ cl, e.appended = some cl →
          List.Perm cl.pairs ((ls.map Lit.negation).zip ws0) ∧
          cl.cardinality = s.maxCostOf - e.cost + 1 ∧
          cl.learned = false) ∧
      ro.2.2.1.learnedDB = s.learnedDB ∧
      (ro.2.1 ≠ [] → ro.2.1.getLastD ⟨Status.Indet, [], 0⟩ = ro.1)) := by
  obtain ⟨-, -, q3, -, q5, q6, q7, -⟩ := SolveS_frame s script
  have hml2 : (s.SolveS script).2.1.minLits = some ls := q5.trans hls
  have hmw2 : (s.SolveS script).2.1.minWeights = some ws0 := q6.trans hws
  have hmc : (s.SolveS script).2.1.maxCostOf = s.maxCostOf := by
    simp only [maxCostOf, hmw2, hws, hml2, hls]
  have hzip : ((sortedAsumptions ls ws0).map Prod.fst).zip
      ((sortedAsumptions ls ws0).map Prod.snd) = sortedAsumptions ls ws0 := by
    rw [List.zip_map']
    simp
  have hperm : List.Perm (sortedAsumptions ls ws0)
      ((ls.map Lit.negation).zip ws0) := sortPairs_perm _
  constructor
  · -- Minimize
    simp only [MinimizeR] at hrm
    split at hrm
    · obtain rfl := (Option.some.injEq _ _).mp hrm
      exact ⟨fun e he => absurd he (by simp), q3⟩
    · simp only [hml2, hmw2, Option.getD_some] at hrm
      obtain ⟨hlog, hdb, -, -, -, -⟩ := minimizeLoop_spec _ _ fuel _ _ _ _ hrm
      constructor
      · intro e he
        rcases hlog e he with he' | hgood
        · exact absurd he' (by simp)
        · refine ⟨hgood.1, fun cl hcl => ?_⟩
          obtain ⟨g1, g2, g3, g4⟩ := hgood.2 cl hcl
          refine ⟨?_, by rw [g3, hmc], g4⟩
          rw [Clause.pairs_eq, Clause.weightsList_some cl _ g2, g1]
          have hp2 : List.Perm (((sortedAsumptions ls ws0).map Prod.fst).zip
              ((sortedAsumptions ls ws0).map Prod.snd))
              ((ls.map Lit.negation).zip ws0) := by
            rw [hzip]
            exact hperm
          exact hp2
      · exact hdb.trans q3
  · -- Optimal
    simp only [OptimalR] at hro
    split at hro
    · obtain rfl := (Option.some.injEq _ _).mp hro
      exact ⟨fun e he => absurd he (by simp), q3, fun hne => absurd rfl hne⟩
    · simp only [hml2, hmw2, Option.getD_some] at hro
      obtain ⟨hlog, hdb, -, -, -, ⟨pre, hpre, hpne, hplast⟩, -, -⟩ :=
        optimalLoop_spec _ _ fuel _ _ _ _ _ hro
      refine ⟨?_, hdb.trans q3, fun hne => ?_⟩
      · intro e he
        rcases hlog e he with he' | hgood
        · exact absurd he' (by simp)
        · refine ⟨hgood.1, fun cl hcl => ?_⟩
          obtain ⟨g1, g2, g3, g4⟩ := hgood.2 cl hcl
          refine ⟨?_, by rw [g3, hmc], g4⟩
          rw [Clause.pairs_eq, Clause.weightsList_some cl _ g2, g1]
          have hp2 : List.Perm (((sortedAsumptions ls ws0).map Prod.fst).zip
              ((sortedAsumptions ls ws0).map Prod.snd))
              ((ls.map Lit.negation).zip ws0) := by
            rw [hzip]
            exact hperm
          exact hp2
      · rw [hpre, List.nil_append]
        exact hplast

end Solver

/-- Negating a literal keeps its variable. -/
theorem varOf_negation (l : Lit) : l.negation.varOf = l.varOf := by
  have h0 : ∀ n : Nat, n % 2 = 0 → (n + 1) / 2 = n / 2 := by
    intro n hn
    omega
  have h1 : ∀ n : Nat, n % 2 = 1 → (n - 1) / 2 = n / 2 := by
    intro n hn
    omega
  unfold Lit.negation Lit.varOf
  rcases Nat.mod_two_eq_zero_or_one l with h | h
  · rw [if_pos (by simp [h])]
    exact h0 l h
  · rw [if_neg (by simp [h])]
    exact h1 l h

/-- Negating a literal flips its sign. -/
theorem isPositive_negation (l : Lit) : l.negation.isPositive = !l.isPositive := by
  have h0 : ∀ n : Nat, n % 2 = 0 → (n + 1) % 2 = 1 := by
    intro n hn
    omega
  have h1 : ∀ n : Nat, n % 2 = 1 → (n - 1) % 2 = 0 := by
    intro n hn
    omega
  unfold Lit.negation Lit.isPositive
  rcases Nat.mod_two_eq_zero_or_one l with h | h
  · rw [if_pos (by simp [h])]
    simp [h, h0 l h]
  · rw [if_neg (by simp [h])]
    simp [h, h1 l h]

namespace Solver

/-- Under the cost-evaluation convention of solver.go:764/827 (an unbound
variable counts as false), a literal and its negation always have
complementary truth values. -/
theorem litTrue_negation (m : List Int) (l : Lit) :
    litTrue m l.negation = !(litTrue m l) := by
  unfold litTrue
  rw [varOf_negation, isPositive_negation]
  cases h1 : decide (0 < m.getD l.varOf 0) <;> cases h2 : l.isPositive <;> rfl

/-- Modelled from the spec: §4.2 semantic truth of a PB constraint under a
completed assignment — the sum of the weights of the true literals reaches
the cardinality.  This is the contract of the missing search engine for
the constraints it is given. -/
def pbSatisfiedB (m : List Int) (c : Clause) : Bool :=
  decide (c.cardinality ≤
    ((c.pairs.map (fun p => if litTrue m p.1 then p.2 else 0)).sum))

/-- Modelled from the spec: §4.4/§4.6 — the search engine (not under src/)
only returns models of the constraint store.  This predicate extracts from
that contract exactly what optimization monotonicity uses: every Sat
outcome of a re-solve satisfies the tightening constraint appended just
before it.  It mirrors the state evolution of the optimization loops. -/
def goodScriptFor (ws : List Int) (maxCost : Int) :
    Nat → Solver → Script → Bool
  | 0, _, _ => true
  | fuel + 1, s, script =>
    let s := { s with lastModel := some s.model }
    let cost := s.computeCost
    if cost = 0 then true
    else
      let clause := NewPBClause s.asumptions ws (maxCost - cost + 1)
      let s := s.AppendClause clause
      let s := s.rebuildOrderHeap
      let r := s.SolveS script
      if r.1 = Status.Sat then
        pbSatisfiedB r.2.1.model clause && goodScriptFor ws maxCost fuel r.2.1 r.2.2
      else true

/-- The truth-weight sum of the negated pairs is the total weight minus the
truth-weight sum of the pairs. -/
theorem negCost_sum (m : List Int) : ∀ (ps : List (Lit × Int)),
    ((ps.map (fun p => (p.1.negation, p.2))).map
      (fun p => if litTrue m p.1 then p.2 else 0)).sum
    = (ps.map Prod.snd).sum
      - (ps.map (fun p => if litTrue m p.1 then p.2 else 0)).sum
  | [] => by simp
  | p :: ps => by
    simp only [List.map_cons, List.sum_cons]
    rw [negCost_sum m ps, litTrue_negation]
    cases h : litTrue m p.1 <;> simp <;> ring

/-- If the search engine's model satisfies the tightening constraint
`Σ w·¬m ≥ T` (over any arrangement of the negated objective pairs), the
objective cost of that model is at most `Σ ws0 − T`. -/
theorem cost_drop_lemma (s2 : Solver) (ls : List Lit) (ws0 ws : List Int)
    (asum : List Lit)
    (hml : s2.minLits = some ls) (hmw : s2.minWeights = some ws0)
    (hlen : ls.length = ws0.length)
    (hperm : List.Perm (asum.zip ws) ((ls.map Lit.negation).zip ws0))
    (T : Int)
    (hpb : pbSatisfiedB s2.model (NewPBClause asum ws T) = true) :
    s2.computeCost ≤ ws0.sum - T := by
  have hsum := of_decide_eq_true hpb
  have hpairs : (NewPBClause asum ws T).pairs = asum.zip ws := rfl
  have hcard : (NewPBClause asum ws T).cardinality = T := rfl
  rw [hpairs, hcard] at hsum
  have hpsum := (hperm.map
    (fun p : Lit × Int => if litTrue s2.model p.1 then p.2 else 0)).sum_eq
  have hmap : ((ls.map Lit.negation).zip ws0)
      = (ls.zip ws0).map (fun p => (p.1.negation, p.2)) := by
    rw [List.zip_map_left]
    exact List.map_congr_left (fun a _ => rfl)
  have hns := negCost_sum s2.model (ls.zip ws0)
  rw [List.map_snd_zip ls ws0 (le_of_eq hlen.symm)] at hns
  have hcc : s2.computeCost = ((ls.zip ws0).map
      (fun p => if litTrue s2.model p.1 then p.2 else 0)).sum := by
    simp only [computeCost, objWeights, hml, hmw, Option.getD_some]
  rw [hcc]
  rw [hpsum, hmap, hns] at hsum
  omega

/-- The loop of `Optimal` under the search-engine contract: the emitted
results, starting from the cost of the current model, have strictly
decreasing costs. -/
theorem optimalLoop_costs_decreasing (ws : List Int) (maxCost : Int)
    (ls : List Lit) (ws0 : List Int) (hlen : ls.length = ws0.length)
    (hmcs : maxCost = ws0.sum) :
    ∀ (fuel : Nat) (s : Solver) (script : Script) (emitted : List Result)
      (log : List IterStep) (r : Result × List Result × Solver × List IterStep),
      optimalLoop ws maxCost fuel s script emitted log = some r →
      goodScriptFor ws maxCost fuel s script = true →
      s.minLits = some ls → s.minWeights = some ws0 →
      List.Perm (s.asumptions.zip ws) ((ls.map Lit.negation).zip ws0) →
      ∃ pre, r.2.1 = emitted ++ pre ∧ pre ≠ [] ∧
        (pre.headD ⟨Status.Indet, [], 0⟩).weight = s.computeCost ∧
        List.Chain' (fun a b => b.weight < a.weight) pre := by
  intro fuel
  induction fuel with
  | zero =>
    intro s script emitted log r h
    simp only [optimalLoop] at h
    exact Option.noConfusion h
  | succ fuel ih =>
    intro s script emitted log r h hg hml hmw hperm
    simp only [optimalLoop] at h
    simp only [goodScriptFor] at hg
    split at h
    · rename_i hc
      rw [if_pos hc] at hg
      obtain rfl := (Option.some.injEq _ _).mp h
      exact ⟨_, rfl, by simp, rfl, List.chain'_singleton _⟩
    · rename_i hc
      rw [if_neg hc] at hg
      split at h
      · rename_i hsat
        rw [if_pos hsat] at hg
        obtain ⟨hpb, hg'⟩ := (Bool.and_eq_true _ _).mp hg
        obtain ⟨f1, f2, f3, f4⟩ :=
          iterBody_frame { s with lastModel := some s.model } _ script
        obtain ⟨pre', hpre', hpne', hphead', hchain'⟩ :=
          ih _ _ _ _ _ h hg' (f3.trans hml) (f4.trans hmw)
            (by rw [f2]; exact hperm)
        have hdrop : (((({ s with lastModel := some s.model }.AppendClause
              (NewPBClause s.asumptions ws
                (maxCost - { s with lastModel := some s.model }.computeCost
                  + 1))).rebuildOrderHeap).SolveS script)).2.1.computeCost
            ≤ { s with lastModel := some s.model }.computeCost - 1 := by
          have hle := cost_drop_lemma _ ls ws0 ws s.asumptions
            (f3.trans hml) (f4.trans hmw) hlen hperm
            (maxCost - { s with lastModel := some s.model }.computeCost + 1) hpb
          omega
        refine ⟨⟨Status.Sat,
            ({ s with lastModel := some s.model }.modelMapFn).getD [],
            { s with lastModel := some s.model }.computeCost⟩ :: pre',
          by rw [hpre', List.append_assoc]; rfl, by simp,
          by rw [List.headD_cons]; exact computeCost_congr _ _ rfl rfl rfl, ?_⟩
        rcases hq : pre' with _ | ⟨x, t⟩
        · exact absurd hq hpne'
        · rw [hq] at hchain' hphead'
          refine List.chain'_cons.mpr ⟨?_, hchain'⟩
          simp only [List.headD_cons] at hphead'
          show x.weight < { s with lastModel := some s.model }.computeCost
          rw [hphead']
          exact lt_of_le_of_lt hdrop (by omega)
      · rename_i hsat
        obtain rfl := (Option.some.injEq _ _).mp h
        exact ⟨_, rfl, by simp, rfl, List.chain'_singleton _⟩

/-- Modelled from the spec: the search-engine contract of §4.4/§4.6 checked
along a whole `Optimal` run — it mirrors `Optimal`'s prologue
(solver.go:729-759) and then follows the loop. -/
def goodScriptOptimal (fuel : Nat) (s : Solver) (script : Script) : Bool :=
  let r0 := s.SolveS script
  let s := r0.2.1
  let script := r0.2.2
  if r0.1 = Status.Unsat then true
  else
    match s.minLits with
    | none => true
    | some ls =>
      let maxCost := s.maxCostOf
      let sorted := sortedAsumptions ls (s.minWeights.getD [])
      let s := { s with asumptions := sorted.map Prod.fst,
                        lastModel := some (List.replicate s.model.length 0) }
      goodScriptFor (sorted.map Prod.snd) maxCost fuel s script

/-- C2: for every problem with a (weighted) objective, under the
search-engine contract — every Sat outcome of a re-solve satisfies the
tightening constraint appended just before it — the costs of the successive
results emitted by `Optimal` on its models channel are strictly
decreasing. -/
theorem optimal_costs_strictly_decreasing (s : Solver) (script : Script)
    (fuel : Nat) (ls : List Lit) (ws0 : List Int)
    (hls : s.minLits = some ls) (hws : s.minWeights = some ws0)
    (hlen : ls.length = ws0.length)
    (r : Result × List Result × Solver × List IterStep)
    (hr : OptimalR fuel s script = some r)
    (hg : goodScriptOptimal fuel s script = true) :
    List.Chain' (fun a b => b.weight < a.weight) r.2.1 := by
  obtain ⟨-, -, -, -, q5, q6, -, -⟩ := SolveS_frame s script
  have hml2 : (s.SolveS script).2.1.minLits = some ls := q5.trans hls
  have hmw2 : (s.SolveS script).2.1.minWeights = some ws0 := q6.trans hws
  have hmc : (s.SolveS script).2.1.maxCostOf = ws0.sum := by
    simp only [maxCostOf, hmw2]
  have hzip : ((sortedAsumptions ls ws0).map Prod.fst).zip
      ((sortedAsumptions ls ws0).map Prod.snd) = sortedAsumptions ls ws0 := by
    rw [List.zip_map']
    simp
  simp only [OptimalR] at hr
  simp only [goodScriptOptimal] at hg
  split at hr
  · obtain rfl := (Option.some.injEq _ _).mp hr
    exact List.chain'_nil
  · rename_i hns
    rw [if_neg hns] at hg
    simp only [hml2, hmw2, Option.getD_some] at hr hg
    obtain ⟨pre, hpre, -, -, hchain⟩ :=
      optimalLoop_costs_decreasing _ _ ls ws0 hlen hmc fuel _ _ _ _ _
        hr hg rfl rfl
        (by
          show List.Perm (((sortedAsumptions ls ws0).map Prod.fst).zip
            ((sortedAsumptions ls ws0).map Prod.snd)) _
          rw [hzip]
          exact sortPairs_perm _)
    rw [hpre, List.nil_append]
    exact hchain

/-- All objective weights are nonnegative: the stored ones by hypothesis,
the implicit all-ones ones by construction. -/
theorem objWeights_nonneg (t : Solver)
    (h : ∀ ws0, t.minWeights = some ws0 → ∀ w ∈ ws0, 0 ≤ w) :
    ∀ w ∈ t.objWeights, 0 ≤ w := by
  unfold objWeights
  rcases hmw : t.minWeights with _ | ws0
  · intro w hw
    rw [List.eq_of_mem_replicate hw]
    omega
  · exact h ws0 hmw

/-- The objective cost of any model is nonnegative when all objective
weights are. -/
theorem computeCost_nonneg (t : Solver)
    (h : ∀ w ∈ t.objWeights, 0 ≤ w) : 0 ≤ t.computeCost := by
  unfold computeCost
  apply List.sum_nonneg
  intro x hx
  obtain ⟨p, hp, rfl⟩ := List.mem_map.mp hx
  split
  · exact h p.2 (List.of_mem_zip hp).2
  · exact le_refl 0

/-- C6: `Minimize` (solver.go:798-851), under nonnegative objective
weights, returns −1 exactly when the initial solve is Unsat; it returns 0
outright on decision problems (no objective); and on optimization problems
it returns the (nonnegative) cost of the model recorded in `lastModel` when
the loop stopped — so zero-cost optima return 0 — and `Model()` afterwards
returns exactly the boolean bindings of that model. -/
theorem minimize_return_value (s : Solver) (script : Script) (fuel : Nat)
    (hpos : ∀ ws0, s.minWeights = some ws0 → ∀ w ∈ ws0, 0 ≤ w)
    (rm : Int × Solver × List IterStep)
    (hrm : MinimizeR fuel s script = some rm) :
    (rm.1 = -1 ↔ (s.SolveS script).1 = Status.Unsat) ∧
    ((s.SolveS script).1 ≠ Status.Unsat → s.minLits = none → rm.1 = 0) ∧
    ((s.SolveS script).1 ≠ Status.Unsat → ∀ ls, s.minLits = some ls →
      ∃ m, rm.2.1.lastModel = some m ∧
        rm.1 = computeCost { rm.2.1 with model := m } ∧
        rm.2.1.modelFn = some (m.map (fun lvl => decide (0 < lvl))) ∧
        0 ≤ rm.1) := by
  obtain ⟨-, -, -, -, q5, q6, -, -⟩ := SolveS_frame s script
  simp only [MinimizeR] at hrm
  split at hrm
  · rename_i hu
    obtain rfl := (Option.some.injEq _ _).mp hrm
    exact ⟨⟨fun _ => hu, fun _ => rfl⟩, fun hnu _ => absurd hu hnu,
      fun hnu ls hls => absurd hu hnu⟩
  · rename_i hu
    rcases hml : (s.SolveS script).2.1.minLits with _ | ls0
    · simp only [hml] at hrm
      obtain rfl := (Option.some.injEq _ _).mp hrm
      have hmlS : s.minLits = none := q5.symm.trans hml
      refine ⟨⟨fun h0 => absurd h0 (by norm_num), fun hU => absurd hU hu⟩,
        fun _ _ => rfl, fun hnu ls hls => ?_⟩
      rw [hmlS] at hls
      exact Option.noConfusion hls
    · simp only [hml] at hrm
      obtain ⟨-, -, -, hml', hmw', m, hlm, hcost⟩ :=
        minimizeLoop_spec _ _ fuel _ _ _ _ hrm
      have hmwS : rm.2.1.minWeights = s.minWeights := by
        rw [hmw']
        exact q6
      have hnn : 0 ≤ rm.1 := by
        rw [hcost]
        apply computeCost_nonneg
        apply objWeights_nonneg
        intro ws0 hws0
        apply hpos ws0
        rw [← hmwS]
        exact hws0
      refine ⟨⟨fun h0 => absurd h0 (by omega), fun hU => absurd hU hu⟩,
        fun hnu hnone => ?_, fun hnu ls hls => ?_⟩
      · rw [q5.symm.trans hml] at hnone
        exact Option.noConfusion hnone
      · refine ⟨m, hlm, hcost, ?_, hnn⟩
        rw [modelFn, hlm]
        rfl

end Solver

/-- A three-variable state with `x1` true at level 1. -/
def sampleC3 : Solver :=
  { nbVars := 3, status := Status.Indet, model := [1, 0, 0], trail := [0],
    reason := [none, none, none], polarity := [false, false, false],
    queue := [1, 2], store := [], locks := [], pbClauses := [],
    learnedDB := [], watched := [], minLits := none, minWeights := none,
    asumptions := [], lastModel := none }

/-- The PB constraint `¬x1 + x2 + x3 ≥ 2` fed to `AppendClause`. -/
def clauseC3 : Clause := NewPBClause [1, 2, 4] [1, 1, 1] 2

/-- The reduction of `clauseC3` under `sampleC3`: `¬x1` is falsified at
level 1 and swap-removed, leaving `x3 + x2 ≥ 2`. -/
def cRedC3 : Clause := NewPBClause [4, 2] [1, 1] 2

/-- Witness for C3 at `sampleC3` / `clauseC3`: the filter removes the
falsified literal and the exactly-attainable branch propagates units. -/
theorem appendClause_filter_dispatch_witness :
    (∀ ws, clauseC3.weights = some ws → ws.length = clauseC3.lits.length) ∧
    sampleC3 = sampleC3.cleanupBindings 1 ∧
    sampleC3.acFilter clauseC3.lits.length clauseC3 0 0 0 = (cRedC3, 0, 2) ∧
    ((sampleC3.store = sampleC3.store ∧
        sampleC3.pbClauses = sampleC3.pbClauses ∧
        sampleC3.learnedDB = sampleC3.learnedDB ∧
        sampleC3.watched = sampleC3.watched ∧
        sampleC3.status = sampleC3.status) ∧
      List.Perm cRedC3.pairs (clauseC3.pairs.filter
          (fun p => decide (sampleC3.litStatus p.1 = Status.Indet))) ∧
      (0 : Int) = sampleC3.sumSt Status.Sat clauseC3.pairs ∧
      (2 : Int) = sampleC3.sumSt Status.Sat clauseC3.pairs
           + sampleC3.sumSt Status.Indet clauseC3.pairs ∧
      cRedC3.cardinality = clauseC3.cardinality - 0 ∧
      cRedC3.learned = clauseC3.learned ∧
      ((clauseC3.cardinality ≤ (0 : Int)) ↔ cRedC3.cardinality ≤ 0) ∧
      (((2 : Int) < clauseC3.cardinality) ↔
        sampleC3.sumSt Status.Indet clauseC3.pairs < cRedC3.cardinality) ∧
      (((2 : Int) = clauseC3.cardinality) ↔
        sampleC3.sumSt Status.Indet clauseC3.pairs = cRedC3.cardinality) ∧
      (clauseC3.cardinality ≤ (0 : Int) →
        sampleC3.AppendClause clauseC3 = sampleC3) ∧
      (¬ clauseC3.cardinality ≤ (0 : Int) → (2 : Int) < clauseC3.cardinality →
        sampleC3.AppendClause clauseC3
          = { sampleC3 with status := Status.Unsat }) ∧
      (¬ clauseC3.cardinality ≤ (0 : Int) →
        ¬ (2 : Int) < clauseC3.cardinality →
        (2 : Int) = clauseC3.cardinality →
        sampleC3.AppendClause clauseC3
          = sampleC3.propagateUnits cRedC3.lits) ∧
      (¬ clauseC3.cardinality ≤ (0 : Int) →
        ¬ (2 : Int) < clauseC3.cardinality →
        (2 : Int) ≠ clauseC3.cardinality →
        sampleC3.AppendClause clauseC3 = sampleC3.appendClauseI cRedC3 ∧
        (sampleC3.appendClauseI cRedC3).store = sampleC3.store ++ [cRedC3] ∧
        (sampleC3.appendClauseI cRedC3).pbClauses
          = sampleC3.pbClauses ++ [sampleC3.store.length] ∧
        (sampleC3.appendClauseI cRedC3).watched
          = sampleC3.watched ++ [sampleC3.store.length] ∧
        (sampleC3.appendClauseI cRedC3).learnedDB = sampleC3.learnedDB)) :=
  ⟨fun ws h => by injection h with h1; rw [← h1]; rfl,
   by decide, by decide,
   Solver.appendClause_filter_dispatch sampleC3 clauseC3 sampleC3 cRedC3 0 2
     (fun ws h => by injection h with h1; rw [← h1]; rfl)
     (by decide) (by decide)⟩

/-- The completed `Minimize` run of the C1 witness. -/
def rmC1 : Int × Solver × List Solver.IterStep :=
  (Solver.MinimizeR 3 sampleOpt sampleOptScript).getD (0, sampleOpt, [])

/-- The completed `Optimal` run of the C1 witness. -/
def roC1 : Solver.Result × List Solver.Result × Solver × List Solver.IterStep :=
  (Solver.OptimalR 3 sampleOpt sampleOptScript).getD
    (⟨Status.Indet, [], 0⟩, [], sampleOpt, [])

/-- Witness for C1 at `sampleOpt` with `sampleOptScript`: a two-iteration
optimization run (cost 1, then cost 0). -/
theorem optimization_appends_tightening_witness :
    sampleOpt.minLits = some [0] ∧
    sampleOpt.minWeights = some [1] ∧
    Solver.MinimizeR 3 sampleOpt sampleOptScript = some rmC1 ∧
    Solver.OptimalR 3 sampleOpt sampleOptScript = some roC1 ∧
    (((∀ e ∈ rmC1.2.2,
        (e.appended = none ↔ e.cost = 0) ∧
        ∀ cl, e.appended = some cl →
          List.Perm cl.pairs (([0].map Lit.negation).zip [1]) ∧
          cl.cardinality = sampleOpt.maxCostOf - e.cost + 1 ∧
          cl.learned = false) ∧
      rmC1.2.1.learnedDB = sampleOpt.learnedDB) ∧
    ((∀ e ∈ roC1.2.2.2,
        (e.appended = none ↔ e.cost = 0) ∧
        ∀ cl, e.appended = some cl →
          List.Perm cl.pairs (([0].map Lit.negation).zip [1]) ∧
          cl.cardinality = sampleOpt.maxCostOf - e.cost + 1 ∧
          cl.learned = false) ∧
      roC1.2.2.1.learnedDB = sampleOpt.learnedDB ∧
      (roC1.2.1 ≠ [] →
        roC1.2.1.getLastD ⟨Status.Indet, [], 0⟩ = roC1.1))) :=
  ⟨by decide, by decide, by decide, by decide,
   Solver.optimization_appends_tightening sampleOpt sampleOptScript 3 [0] [1]
     (by decide) (by decide) rmC1 (by decide) roC1 (by decide)⟩

/-- Witness for C2 at `sampleOpt` with `sampleOptScript`: the emitted costs
are `[1, 0]`, strictly decreasing. -/
theorem optimal_costs_strictly_decreasing_witness :
    sampleOpt.minLits = some [0] ∧
    sampleOpt.minWeights = some [1] ∧
    ([0] : List Lit).length = ([1] : List Int).length ∧
    Solver.OptimalR 3 sampleOpt sampleOptScript = some roC1 ∧
    Solver.goodScriptOptimal 3 sampleOpt sampleOptScript = true ∧
    List.Chain' (fun a b : Solver.Result => b.weight < a.weight) roC1.2.1 :=
  ⟨by decide, by decide, by decide, by decide, by decide,
   Solver.optimal_costs_strictly_decreasing sampleOpt sampleOptScript 3 [0] [1]
     (by decide) (by decide) (by decide) roC1 (by decide) (by decide)⟩

/-- Witness for C6 at `sampleOpt` with `sampleOptScript`: the run ends with
cost 0 achieved by the recorded model `x1 = false`. -/
theorem minimize_return_value_witness :
    (∀ ws0, sampleOpt.minWeights = some ws0 → ∀ w ∈ ws0, 0 ≤ w) ∧
    Solver.MinimizeR 3 sampleOpt sampleOptScript = some rmC1 ∧
    ((rmC1.1 = -1 ↔ (sampleOpt.SolveS sampleOptScript).1 = Status.Unsat) ∧
     ((sampleOpt.SolveS sampleOptScript).1 ≠ Status.Unsat →
       sampleOpt.minLits = none → rmC1.1 = 0) ∧
     ((sampleOpt.SolveS sampleOptScript).1 ≠ Status.Unsat →
       ∀ ls, sampleOpt.minLits = some ls →
       ∃ m, rmC1.2.1.lastModel = some m ∧
         rmC1.1 = Solver.computeCost { rmC1.2.1 with model := m } ∧
         rmC1.2.1.modelFn = some (m.map (fun lvl => decide (0 < lvl))) ∧
         0 ≤ rmC1.1)) :=
  ⟨fun ws0 h w hw => by
      injection h with h1
      rw [← h1] at hw
      rw [List.mem_singleton.mp hw]
      decide,
   by decide,
   Solver.minimize_return_value sampleOpt sampleOptScript 3
     (fun ws0 h w hw => by
       injection h with h1
       rw [← h1] at hw
       rw [List.mem_singleton.mp hw]
       decide)
     rmC1 (by decide)⟩

theorem getD_set_lt {α} (xs : List α) (i : Nat) (a d : α) (h : i < xs.length) :
    (xs.set i a).getD i d = a := by
  simp [List.getD_eq_getElem?_getD, List.getElem?_set_self h]

/-- `IntToLit` on the positive DIMACS index of variable `v`. -/
theorem IntToLit_pos (v : Nat) : IntToLit ((v : Int) + 1) = 2 * v := by
  have h : ∀ n : Nat, (2 * ((n : Int) + 1 - 1)).toNat = 2 * n := by
    intro n
    omega
  unfold IntToLit
  rw [if_neg (by omega)]
  exact h v

/-- `IntToLit` on the negative DIMACS index of variable `v`. -/
theorem IntToLit_neg (v : Nat) : IntToLit (-(v : Int) - 1) = 2 * v + 1 := by
  have h : ∀ n : Nat, (2 * (-(-(n : Int) - 1) - 1) + 1).toNat = 2 * n + 1 := by
    intro n
    omega
  unfold IntToLit
  rw [if_pos (by omega)]
  exact h v

theorem varOf_double (v : Nat) : Lit.varOf (2 * v) = v := by
  unfold Lit.varOf
  exact Nat.mul_div_cancel_left v (by omega)

theorem varOf_double_succ (v : Nat) : Lit.varOf (2 * v + 1) = v := by
  have h : ∀ n : Nat, n + 1 / 2 = n := by
    intro n
    omega
  unfold Lit.varOf
  rw [Nat.mul_add_div (by omega)]
  exact h v

theorem isPositive_double (v : Nat) : Lit.isPositive (2 * v) = true := by
  unfold Lit.isPositive
  simp [Nat.mul_mod_right]

theorem isPositive_double_succ (v : Nat) : Lit.isPositive (2 * v + 1) = false := by
  unfold Lit.isPositive
  rw [Nat.mul_add_mod]
  rfl

namespace Solver

theorem unbindLit_reason_length (s : Solver) (l : Lit) :
    (s.unbindLit l).reason.length = s.reason.length := by
  simp only [unbindLit]
  rcases h : s.reason.getD l.varOf none with _ | cid <;> simp [h]

theorem unbind_foldl_reason_length (L : List Lit) : ∀ (t : Solver),
    (L.foldl Solver.unbindLit t).reason.length = t.reason.length := by
  induction L with
  | nil => exact fun t => rfl
  | cons l L ihL =>
    intro t
    simp only [List.foldl_cons]
    exact (ihL (t.unbindLit l)).trans (unbindLit_reason_length t l)

/-- `cleanupBindings` keeps the length of the reason array. -/
theorem cleanup_reason_length (s : Solver) (lvl : Int) :
    (s.cleanupBindings lvl).reason.length = s.reason.length := by
  rcases hidx : s.trail.findIdx? (s.aboveLvl lvl) with _ | i
  · simp only [cleanupBindings, hidx]
    obtain ⟨-, -, r3, -⟩ := resetOptim_preserved s
    rw [r3]
  · simp only [cleanupBindings, hidx]
    obtain ⟨-, -, r3, -⟩ := resetOptim_preserved
      { (s.trail.drop i).foldl Solver.unbindLit s with trail := s.trail.take i }
    rw [r3]
    exact unbind_foldl_reason_length (s.trail.drop i) s

/-- The fold of `decisionLits` (solver.go:594-603) processed over the first
`j` variables: assuming one decision variable `D lvl` per level
`2 ≤ lvl ≤ top` (reason-free, bound at that level, and no other reason-free
variable bound above level 1), the slot of level `lvl` holds the negated
binding of `D lvl` once that variable has been processed, and `0` before. -/
theorem decisionLits_foldl_spec (s : Solver) (top : Nat) (D : Nat → GVar)
    (hmax : ∀ v, v < s.reason.length → (s.model.getD v 0).natAbs ≤ top)
    (hD : ∀ lvl, 2 ≤ lvl → lvl ≤ top → D lvl < s.reason.length ∧
      s.reason.getD (D lvl) none = none ∧
      (s.model.getD (D lvl) 0).natAbs = lvl)
    (huniq : ∀ v, v < s.reason.length → s.reason.getD v none = none →
      1 < (s.model.getD v 0).natAbs → v = D ((s.model.getD v 0).natAbs)) :
    ∀ j, j ≤ s.reason.length →
      ((List.range j).foldl
          (fun lits i =>
            match s.reason.getD i none with
            | some _ => lits
            | none =>
              let lvl := (s.model.getD i 0).natAbs
              if 1 < lvl then
                if s.model.getD i 0 < 0 then
                  lits.set (lvl - 2) (IntToLit (i + 1))
                else lits.set (lvl - 2) (IntToLit (-(i : Int) - 1))
              else lits)
          (List.replicate (top - 1) (0 : Lit))).length = top - 1 ∧
      (∀ lvl, 2 ≤ lvl → lvl ≤ top →
        ((List.range j).foldl
          (fun lits i =>
            match s.reason.getD i none with
            | some _ => lits
            | none =>
              let lvl := (s.model.getD i 0).natAbs
              if 1 < lvl then
                if s.model.getD i 0 < 0 then
                  lits.set (lvl - 2) (IntToLit (i + 1))
                else lits.set (lvl - 2) (IntToLit (-(i : Int) - 1))
              else lits)
          (List.replicate (top - 1) (0 : Lit))).getD (lvl - 2) 0
          = if D lvl < j then
              (if s.model.getD (D lvl) 0 < 0 then IntToLit ((D lvl : Int) + 1)
               else IntToLit (-(D lvl : Int) - 1))
            else 0) := by
  intro j
  induction j with
  | zero =>
    intro hj
    refine ⟨by rw [List.range_zero, List.foldl_nil, List.length_replicate], ?_⟩
    intro lvl h2 hlt
    have h0 : ¬ D lvl < 0 := Nat.not_lt_zero _
    rw [List.range_zero, List.foldl_nil, if_neg h0]
    simp only [List.getD_eq_getElem?_getD, List.getElem?_replicate]
    split <;> rfl
  | succ j ihj =>
    intro hj
    obtain ⟨ihlen, ihgetD⟩ := ihj (by omega)
    rw [List.range_succ, List.foldl_append, List.foldl_cons, List.foldl_nil]
    rcases hrj : s.reason.getD j none with _ | cid
    · simp only [hrj]
      by_cases h1 : 1 < (s.model.getD j 0).natAbs
      · have hjD : j = D ((s.model.getD j 0).natAbs) :=
          huniq j (by omega) hrj h1
        have hjtop : (s.model.getD j 0).natAbs ≤ top := hmax j (by omega)
        have hjj : j < j + 1 := by omega
        have hgen : ∀ d : Nat, d ≠ j → ((d < j) ↔ (d < j + 1)) := by
          intro d hd
          omega
        by_cases hneg : s.model.getD j 0 < 0
        · rw [if_pos h1, if_pos hneg]
          refine ⟨by rw [List.length_set]; exact ihlen, ?_⟩
          intro lvl h2 hlt
          by_cases heq : lvl = (s.model.getD j 0).natAbs
          · rw [heq, ← hjD, getD_set_lt]
            · rw [if_pos hjj, if_pos hneg]
            · rw [ihlen]
              omega
          · have hne : D lvl ≠ j := by
              intro hDj
              exact heq (((hD lvl h2 hlt).2.2).symm.trans (by rw [hDj]))
            have hidx : (s.model.getD j 0).natAbs - 2 ≠ lvl - 2 := by omega
            rw [getD_set_other _ hidx _ _, ihgetD lvl h2 hlt]
            exact if_congr (hgen (D lvl) hne) rfl rfl
        · rw [if_pos h1, if_neg hneg]
          refine ⟨by rw [List.length_set]; exact ihlen, ?_⟩
          intro lvl h2 hlt
          by_cases heq : lvl = (s.model.getD j 0).natAbs
          · rw [heq, ← hjD, getD_set_lt]
            · rw [if_pos hjj, if_neg hneg]
            · rw [ihlen]
              omega
          · have hne : D lvl ≠ j := by
              intro hDj
              exact heq (((hD lvl h2 hlt).2.2).symm.trans (by rw [hDj]))
            have hidx : (s.model.getD j 0).natAbs - 2 ≠ lvl - 2 := by omega
            rw [getD_set_other _ hidx _ _, ihgetD lvl h2 hlt]
            exact if_congr (hgen (D lvl) hne) rfl rfl
      · rw [if_neg h1]
        refine ⟨ihlen, ?_⟩
        intro lvl h2 hlt
        have hne : D lvl ≠ j := by
          intro hDj
          apply h1
          have hmm := (hD lvl h2 hlt).2.2
          rw [hDj] at hmm
          rw [hmm]
          omega
        have hgen : ∀ d : Nat, d ≠ j → ((d < j) ↔ (d < j + 1)) := by
          intro d hd
          omega
        rw [ihgetD lvl h2 hlt]
        exact if_congr (hgen (D lvl) hne) rfl rfl
    · simp only [hrj]
      refine ⟨ihlen, ?_⟩
      intro lvl h2 hlt
      have hne : D lvl ≠ j := by
        intro hDj
        have := (hD lvl h2 hlt).2.1
        rw [hDj, hrj] at this
        exact Option.noConfusion this
      have hgen : ∀ d : Nat, d ≠ j → ((d < j) ↔ (d < j + 1)) := by
        intro d hd
        omega
      rw [ihgetD lvl h2 hlt]
      exact if_congr (hgen (D lvl) hne) rfl rfl

theorem getLastD_eq_getD {α} (l : List α) (d : α) :
    l.getLastD d = l.getD (l.length - 1) d := by
  rw [List.getLastD_eq_getLast?, List.getLast?_eq_getElem?,
    List.getD_eq_getElem?_getD]

/-- C4: enumeration (`Enumerate` solver.go:472-513, duplicated in
`CountModels` solver.go:516-585).  Under the decision-structure hypotheses
(one reason-free variable `D lvl` bound at each level `2 ≤ lvl ≤ top`,
where `top` is the level of the last trail literal, no variable bound
higher, and no other reason-free variable above level 1): the decision-lits
slice has one slot per level ≥ 2, ordered by level, each holding a literal
of that level's decision variable falsified by the current model (the
negation of the decision literal).  The post-Sat step then dispatches on
its length: zero sets Unsat and stops; one propagates the literal as a unit
at level 1; two or more appends the blocking clause, attaches and watches
it, backtracks to the second-highest decision level `top - 1`, and records
the blocking clause as the reason of the highest-level decision variable,
handing the search its negated decision literal and `top - 1`.  After every
Sat outcome the enumeration loop counts the model and proceeds through this
step. -/
theorem enumerate_blocking_dispatch (s : Solver) (emitModels : Bool)
    (fuel : Nat) (script : Script) (nb : Nat)
    (D : Nat → GVar) (top : Nat)
    (htop : top = (s.model.getD (s.trail.getLastD 0).varOf 0).natAbs)
    (hmax : ∀ v, v < s.reason.length → (s.model.getD v 0).natAbs ≤ top)
    (hD : ∀ lvl, 2 ≤ lvl → lvl ≤ top → D lvl < s.reason.length ∧
      s.reason.getD (D lvl) none = none ∧
      (s.model.getD (D lvl) 0).natAbs = lvl)
    (huniq : ∀ v, v < s.reason.length → s.reason.getD v none = none →
      1 < (s.model.getD v 0).natAbs → v = D ((s.model.getD v 0).natAbs)) :
    (s.decisionLits.length = top - 1 ∧
      ∀ lvl, 2 ≤ lvl → lvl ≤ top →
        (s.decisionLits.getD (lvl - 2) 0).varOf = D lvl ∧
        litTrue s.model (s.decisionLits.getD (lvl - 2) 0) = false) ∧
    (s.decisionLits.length = 0 →
      s.enumerateStep = ({ s with status := Status.Unsat }, none)) ∧
    (s.decisionLits.length = 1 →
      s.enumerateStep
        = (({ s with status := Status.Indet }).propagateUnits s.decisionLits,
            none)) ∧
    (2 ≤ s.decisionLits.length →
      s.enumerateStep
        = (let c := NewClause s.decisionLits
           let cid := s.store.length
           let s1 := ({ s with status := Status.Indet }).appendClauseI c
           let lit := s.decisionLits.getLastD 0
           let v := lit.varOf
           let lvl := ((s.model.getD v 0).natAbs : Int) - 1
           let s2 := s1.cleanupBindings lvl
           ({ s2 with reason := s2.reason.set v (some cid) },
            some (lit, lvl))) ∧
      (s.enumerateStep).1.store = s.store ++ [NewClause s.decisionLits] ∧
      (s.enumerateStep).1.pbClauses = s.pbClauses ++ [s.store.length] ∧
      (s.enumerateStep).1.watched = s.watched ++ [s.store.length] ∧
      ((s.decisionLits.getLastD 0).varOf < s.reason.length →
        (s.enumerateStep).1.reason.getD (s.decisionLits.getLastD 0).varOf none
          = some s.store.length) ∧
      s.decisionLits.getLastD 0 = s.decisionLits.getD (top - 2) 0 ∧
      (s.decisionLits.getD (top - 2) 0).varOf = D top ∧
      ((s.model.getD (D top) 0).natAbs : Int) - 1 = (top : Int) - 1) ∧
    (s.status = Status.Sat →
      enumLoop emitModels (fuel + 1) s script nb
        = enumLoop emitModels fuel
            (((if emitModels then { s with lastModel := some s.model }
               else s)).enumerateStep).1 script (nb + 1)) := by
  subst htop
  obtain ⟨hlen, hslot⟩ :=
    decisionLits_foldl_spec s _ D hmax hD huniq s.reason.length (le_refl _)
  have hdl : s.decisionLits.length
      = (s.model.getD (s.trail.getLastD 0).varOf 0).natAbs - 1 := hlen
  have hA : ∀ lvl, 2 ≤ lvl →
      lvl ≤ (s.model.getD (s.trail.getLastD 0).varOf 0).natAbs →
      (s.decisionLits.getD (lvl - 2) 0).varOf = D lvl ∧
        litTrue s.model (s.decisionLits.getD (lvl - 2) 0) = false := by
    intro lvl h2 hlt
    have hslot' := hslot lvl h2 hlt
    rw [if_pos (hD lvl h2 hlt).1] at hslot'
    have hslot2 : s.decisionLits.getD (lvl - 2) 0
        = if s.model.getD (D lvl) 0 < 0 then IntToLit ((D lvl : Int) + 1)
          else IntToLit (-(D lvl : Int) - 1) := hslot'
    by_cases hneg : s.model.getD (D lvl) 0 < 0
    · rw [if_pos hneg] at hslot2
      rw [hslot2, IntToLit_pos]
      refine ⟨varOf_double _, ?_⟩
      unfold litTrue
      rw [varOf_double, isPositive_double,
        decide_eq_false (show ¬ 0 < s.model.getD (D lvl) 0 by omega)]
      rfl
    · rw [if_neg hneg] at hslot2
      rw [hslot2, IntToLit_neg]
      refine ⟨varOf_double_succ _, ?_⟩
      have hpos : 0 < s.model.getD (D lvl) 0 := by
        have hnz := (hD lvl h2 hlt).2.2
        omega
      unfold litTrue
      rw [varOf_double_succ, isPositive_double_succ, decide_eq_true hpos]
      rfl
  refine ⟨⟨hdl, hA⟩, ?_, ?_, ?_, ?_⟩
  · intro h0
    simp only [enumerateStep]
    rw [if_pos (show ({ s with status := Status.Indet } : Solver).decisionLits.length
      = 0 from h0)]
  · intro h1
    have hne0 : ¬ ({ s with status := Status.Indet } : Solver).decisionLits.length
        = 0 := by
      intro hc
      rw [show ({ s with status := Status.Indet } : Solver).decisionLits.length
        = s.decisionLits.length from rfl] at hc
      omega
    simp only [enumerateStep]
    rw [if_neg hne0, if_pos (show ({ s with status := Status.Indet } :
      Solver).decisionLits.length = 1 from h1)]
    rfl
  · intro h2le
    have hne0 : ¬ ({ s with status := Status.Indet } : Solver).decisionLits.length
        = 0 := by
      intro hc
      rw [show ({ s with status := Status.Indet } : Solver).decisionLits.length
        = s.decisionLits.length from rfl] at hc
      omega
    have hne1 : ¬ ({ s with status := Status.Indet } : Solver).decisionLits.length
        = 1 := by
      intro hc
      rw [show ({ s with status := Status.Indet } : Solver).decisionLits.length
        = s.decisionLits.length from rfl] at hc
      omega
    have hstep : s.enumerateStep
        = (let c := NewClause s.decisionLits
           let cid := s.store.length
           let s1 := ({ s with status := Status.Indet }).appendClauseI c
           let lit := s.decisionLits.getLastD 0
           let v := lit.varOf
           let lvl := ((s.model.getD v 0).natAbs : Int) - 1
           let s2 := s1.cleanupBindings lvl
           ({ s2 with reason := s2.reason.set v (some cid) },
            some (lit, lvl))) := by
      simp only [enumerateStep]
      rw [if_neg hne0, if_neg hne1]
      rfl
    obtain ⟨d1, d2, d3, d4, -⟩ := cleanup_db
      (({ s with status := Status.Indet }).appendClauseI
        (NewClause s.decisionLits))
      (((s.model.getD (s.decisionLits.getLastD 0).varOf 0).natAbs : Int) - 1)
    have hrl := cleanup_reason_length
      (({ s with status := Status.Indet }).appendClauseI
        (NewClause s.decisionLits))
      (((s.model.getD (s.decisionLits.getLastD 0).varOf 0).natAbs : Int) - 1)
    have htop2 : 2 ≤ (s.model.getD (s.trail.getLastD 0).varOf 0).natAbs := by
      omega
    have hlast : s.decisionLits.getLastD 0
        = s.decisionLits.getD
            ((s.model.getD (s.trail.getLastD 0).varOf 0).natAbs - 2) 0 := by
      rw [getLastD_eq_getD, hdl]
      congr 1
    refine ⟨hstep, ?_, ?_, ?_, ?_, hlast, (hA _ htop2 (le_refl _)).1, ?_⟩
    · rw [hstep]
      exact d1
    · rw [hstep]
      exact d2
    · rw [hstep]
      exact d4
    · intro hv
      rw [hstep]
      exact getD_set_lt _ _ _ _ (by rw [hrl]; exact hv)
    · rw [(hD _ htop2 (le_refl _)).2.2]
  · intro hsat
    simp only [enumLoop, hsat]
    rfl

def sampleC4 : Solver :=
  { nbVars := 3, status := Status.Sat, model := [1, 2, 3], trail := [0, 2, 4],
    reason := [none, none, none], polarity := [false, false, false],
    queue := [], store := [], locks := [], pbClauses := [],
    learnedDB := [], watched := [], minLits := none, minWeights := none,
    asumptions := [], lastModel := none }

theorem enumerate_blocking_dispatch_witness :
    sampleC4.decisionLits.length = 3 - 1 ∧
    sampleC4.enumerateStep.1.store
      = sampleC4.store ++ [NewClause sampleC4.decisionLits] ∧
    enumLoop true (0 + 1) sampleC4 [] 0
      = enumLoop true 0
          (((if (true : Bool) then { sampleC4 with lastModel := some sampleC4.model }
             else sampleC4)).enumerateStep).1 [] (0 + 1) := by
  have hmax : ∀ v, v < sampleC4.reason.length →
      (sampleC4.model.getD v 0).natAbs ≤ 3 := by
    intro v hv
    have hv3 : v < 3 := hv
    rcases (show v = 0 ∨ v = 1 ∨ v = 2 by omega) with rfl | rfl | rfl <;> decide
  have hDh : ∀ lvl, 2 ≤ lvl → lvl ≤ 3 →
      (fun lvl => lvl - 1) lvl < sampleC4.reason.length ∧
      sampleC4.reason.getD ((fun lvl => lvl - 1) lvl) none = none ∧
      (sampleC4.model.getD ((fun lvl => lvl - 1) lvl) 0).natAbs = lvl := by
    intro lvl h2 h3
    rcases (show lvl = 2 ∨ lvl = 3 by omega) with rfl | rfl <;>
      exact ⟨by decide, by decide, by decide⟩
  have huniq : ∀ v, v < sampleC4.reason.length →
      sampleC4.reason.getD v none = none →
      1 < (sampleC4.model.getD v 0).natAbs →
      v = (fun lvl => lvl - 1) ((sampleC4.model.getD v 0).natAbs) := by
    intro v hv h1 h2
    have hv3 : v < 3 := hv
    rcases (show v = 0 ∨ v = 1 ∨ v = 2 by omega) with rfl | rfl | rfl
    · exact absurd h2 (by decide)
    · decide
    · decide
  have h := enumerate_blocking_dispatch sampleC4 true 0 [] 0
      (fun lvl => lvl - 1) 3 (by decide) hmax hDh huniq
  exact ⟨h.1.1, (h.2.2.2.1 (by decide)).2.1, h.2.2.2.2 (by decide)⟩

end Solver

end GS
